import Mathlib

/-!
# Verification of the Leggi-wayback ETL scripts

A shallow embedding of the row-extraction, field-normalization, geo-enrichment
and merge logic of the repository's Python scripts
(`scripts/pdf_to_tsv.py`, `scripts/enrich_with_distance.py`,
`scripts/normalize_tsv.py`, `scripts/merge_enriched.py`),
together with theorems settling the specification claims about them.

Modelling conventions:
* Python `str` values are modelled as `List Char` (with thin `String` wrappers);
  all inputs in scope are Unicode text and the regexes involved use ASCII
  character classes, which are embedded exactly.
* Python `float` is modelled as `ℚ`; `math.nan` (and `None` results) as
  `Option.none`.  The monetary and distance arithmetic in these scripts is
  decimal arithmetic on parsed text, exactly representable in `ℚ`.
* The regular expressions used by the scripts are embedded as dedicated
  scanning functions with Python `re` semantics (leftmost match, greedy /
  non-greedy alternation as in the source patterns); each scanner documents
  the pattern it implements.
* Remote HTTP collaborators (`requests` geocoding / routing calls) and the
  external `haversine` function are modelled as oracle parameters; each
  remote invocation is recorded in an event log so that call-counting
  properties can be stated.
-/

/-! ## Character-level utilities (Python `str` / `re` primitives, ASCII) -/

/-- Python `\s` (ASCII range): space, tab, newline, carriage return,
vertical tab, form feed. -/
def isPySpace (c : Char) : Bool :=
  c == ' ' || c == '\t' || c == '\n' || c == '\r' || c == '\x0b' || c == '\x0c'

/-- Python `\w` (ASCII range): letters, digits, underscore.  Used for the
`\b` word-boundary assertions in the source regexes. -/
def isWordChar (c : Char) : Bool :=
  c.isAlpha || c.isDigit || c == '_'

/-- ASCII uppercase letter, the `[A-Z]` character class. -/
def isUpperAZ (c : Char) : Bool :=
  'A' ≤ c && c ≤ 'Z'

/-- The 26 ASCII case pairs, used by the `str.lower` / `str.upper` models. -/
def casePairs : List (Char × Char) :=
  [('A', 'a'), ('B', 'b'), ('C', 'c'), ('D', 'd'), ('E', 'e'), ('F', 'f'),
   ('G', 'g'), ('H', 'h'), ('I', 'i'), ('J', 'j'), ('K', 'k'), ('L', 'l'),
   ('M', 'm'), ('N', 'n'), ('O', 'o'), ('P', 'p'), ('Q', 'q'), ('R', 'r'),
   ('S', 's'), ('T', 't'), ('U', 'u'), ('V', 'v'), ('W', 'w'), ('X', 'x'),
   ('Y', 'y'), ('Z', 'z')]

/-- Python `str.lower` restricted to ASCII letters (all strings that reach
`.lower()` in these scripts are ASCII after `unidecode`). -/
def pyLower (c : Char) : Char :=
  match casePairs.find? (fun p => p.1 == c) with
  | some p => p.2
  | none => c

/-- Python `str.upper` restricted to ASCII letters. -/
def pyUpper (c : Char) : Char :=
  match casePairs.find? (fun p => p.2 == c) with
  | some p => p.1
  | none => c

def pyLowerStr (l : List Char) : List Char := l.map pyLower

/-- Python `str.strip()`: remove leading and trailing whitespace. -/
def stripStr (l : List Char) : List Char :=
  ((l.dropWhile isPySpace).reverse.dropWhile isPySpace).reverse

/-- Numeric value of a digit string (children assumed to satisfy `Char.isDigit`). -/
def digitsVal (l : List Char) : ℕ :=
  l.foldl (fun a c => 10 * a + (c.toNat - 48)) 0

/-- Value of a decimal fraction part: `fracVal "25" = 25/100`. -/
def fracVal (l : List Char) : ℚ :=
  (digitsVal l : ℚ) / (10 : ℚ) ^ l.length

/-- Python `float(s)` on the plain decimal forms reachable in these scripts
(an optional sign, digits, an optional dot with digits; at least one digit).
The inputs that reach `float` here have been filtered down to the characters
`0-9 . -` (plus a possible `+`), so the exponent/`inf`/`nan` forms of Python's
float grammar are unreachable and are not modelled. -/
def parseFloat (l : List Char) : Option ℚ :=
  let (neg, l') : Bool × List Char :=
    match l with
    | '-' :: r => (true, r)
    | '+' :: r => (false, r)
    | r => (false, r)
  let ip := l'.takeWhile Char.isDigit
  let r1 := l'.dropWhile Char.isDigit
  let mag : Option ℚ :=
    match r1 with
    | [] => if ip.isEmpty then none else some (digitsVal ip : ℚ)
    | '.' :: fp =>
        if fp.all Char.isDigit && !(ip.isEmpty && fp.isEmpty) then
          some ((digitsVal ip : ℚ) + fracVal fp)
        else none
    | _ => none
  mag.map (fun q => if neg then -q else q)

namespace Enrich

/-! ## `scripts/enrich_with_distance.py` — field normalizers -/

/-- `to_float` (enrich_with_distance.py, lines 67-76): strip, keep only
`[0-9.\-]` (the `re.sub(r"[^\d\.\-]", "", s)`), then `float`; empty or
unparsable yields NaN (modelled as `none`). -/
def to_float (l : List Char) : Option ℚ :=
  let s := (stripStr l).filter (fun c => c.isDigit || c == '.' || c == '-')
  if s.isEmpty then none else parseFloat s

/-- Round-half-even at integer precision, the tie-breaking rule of Python's
built-in `round`.  (The claims proved below involve no exact ties, so the
tie rule never decides an answer; it is embedded for completeness.) -/
def roundHalfEven (q : ℚ) : ℤ :=
  let f := ⌊q⌋
  let r := q - (f : ℚ)
  if r < 1/2 then f
  else if 1/2 < r then f + 1
  else if 2 ∣ f then f else f + 1

/-- Python `round(x, 4)`. -/
def round4 (q : ℚ) : ℚ :=
  (roundHalfEven (q * 10000) : ℚ) / 10000

/-- `safe_ratio` (enrich_with_distance.py, lines 262-267):
`round(a/b, 4)` if `b` is a positive number, NaN otherwise (the Python guard
`b and b > 0` rejects `b = 0`, negative `b` and NaN `b`; a NaN numerator
propagates through `round` to NaN). -/
def safe_ratio (a b : Option ℚ) : Option ℚ :=
  match a, b with
  | some a, some b => if 0 < b then some (round4 (a / b)) else none
  | _, _ => none

/-- NaN-propagating subtraction, the behaviour of
`pd.to_numeric(df["revenue"]) - pd.to_numeric(df["cost"])` on a single row. -/
def optSub (a b : Option ℚ) : Option ℚ :=
  match a, b with
  | some a, some b => some (a - b)
  | _, _ => none

/-- The derived per-kilometre columns of one enriched row
(enrich_with_distance.py, lines 301-305): `revenue_per_km` and `cost_per_km`
divide the parsed columns by the distance, while `margin_per_km` divides the
arithmetic difference `revenue - cost` (NOT the parsed `margin` column). -/
structure EnrichedRow where
  revenue : Option ℚ
  cost : Option ℚ
  margin : Option ℚ
  distance_km : Option ℚ
  revenue_per_km : Option ℚ
  cost_per_km : Option ℚ
  margin_per_km : Option ℚ
deriving DecidableEq, Repr

/-- Lines 301-305 of `enrich_file`, applied to one row whose `revenue`,
`cost`, `margin` columns have already been cast with `to_float` (line 285)
and whose `distance_km` was just computed. -/
def enrichDerived (rev cost marg dist : Option ℚ) : EnrichedRow :=
  { revenue := rev
    cost := cost
    margin := marg
    distance_km := dist
    revenue_per_km := safe_ratio rev dist
    cost_per_km := safe_ratio cost dist
    margin_per_km := safe_ratio (optSub rev cost) dist }

/-! ## `scripts/enrich_with_distance.py` — batch column check (lines 278-281, 315-323) -/

/-- The eight required input columns of `enrich_file`
(enrich_with_distance.py, line 278). -/
def requiredCols : List String :=
  ["order_no", "req_pu_date", "customer", "origin", "destination",
   "revenue", "cost", "margin"]

/-- One raw input TSV, reduced to what the column check observes: its file
name and its column list (after the optional `try_normalize_tabula4` patch,
which rewrites the one recognized 4-column Tabula header set and leaves every
other column list unchanged). -/
structure TsvFile where
  name : String
  cols : List String
deriving DecidableEq, Repr

/-- `missing = [c for c in required if c not in df.columns]`
(enrich_with_distance.py, line 279). -/
def missingCols (cols : List String) : List String :=
  requiredCols.filter (fun c => !cols.contains c)

/-- The admission check of `enrich_file` (lines 278-281): if any required
column is missing, a `ValueError` is raised (modelled as `Except.error`);
otherwise the file is enriched (modelled as `Except.ok`). -/
def enrichFileCheck (f : TsvFile) : Except String Unit :=
  if missingCols f.cols = [] then .ok ()
  else .error (f.name ++ ": colonnes manquantes")

/-- The `main` loop of enrich_with_distance.py (lines 315-323):
`for f in files: enrich_file(f)` with **no** try/except around the call, so
an exception raised by `enrich_file` propagates and ends the whole loop.
Returns the names of the files fully processed before the run ended, plus
the propagated error if one was raised. -/
def enrichMain : List TsvFile → List String × Option String
  | [] => ([], none)
  | f :: fs =>
    match enrichFileCheck f with
    | .error e => ([], some e)
    | .ok _ =>
      let r := enrichMain fs
      (f.name :: r.1, r.2)

end Enrich

namespace Merge

/-! ## `scripts/merge_enriched.py` — column alignment (lines 10-26) -/

/-- `EXPECTED_COLS` (merge_enriched.py, lines 10-14).  Note the fourth
derived column is named `rate_per_km` here, not `revenue_per_km`. -/
def EXPECTED_COLS : List String :=
  ["order_no", "req_pu_date", "customer", "origin", "destination",
   "revenue", "cost", "margin", "distance_km",
   "rate_per_km", "cost_per_km", "margin_per_km"]

/-- A loaded table, column-major: each column is its header paired with its
cell values (`none` = missing value / `pd.NA`). -/
def Table := List (String × List (Option String))

/-- Number of rows of a table (pandas: all columns share one index). -/
def Table.nrows (t : Table) : Nat :=
  match t with
  | [] => 0
  | c :: _ => c.2.length

/-- Header normalization of `load_one`:
`df.columns = [c.strip().lower() for c in df.columns]` (line 20). -/
def lowerHeader (s : String) : String :=
  String.mk (pyLowerStr (stripStr s.toList))

/-- The column-alignment step of `load_one` (merge_enriched.py, lines 18-26):
lower/strip the headers, synthesize every absent expected column as an
all-`NA` column, then select exactly `EXPECTED_COLS` in order (dropping any
other column). -/
def alignColumns (t : Table) : Table :=
  let lowered := t.map (fun p => (lowerHeader p.1, p.2))
  EXPECTED_COLS.map (fun c =>
    match lowered.find? (fun p => p.1 == c) with
    | some p => (c, p.2)
    | none => (c, List.replicate (Table.nrows t) none))

end Merge

namespace Enrich

/-- The column list of the TSV written by `enrich_file`
(enrich_with_distance.py, lines 278, 301-305, 312): the eight required
columns followed by the four derived columns appended to the dataframe —
`distance_km`, `revenue_per_km`, `cost_per_km` and `margin_per_km`. -/
def enrichedOutputCols : List String :=
  requiredCols ++ ["distance_km", "revenue_per_km", "cost_per_km", "margin_per_km"]

end Enrich

/-! ### Claim C3 -/

/-- A two-row table with exactly the columns produced by `enrich_file`,
with a marker value in every cell of the derived per-km columns. -/
def enrichedSample : Merge.Table :=
  Enrich.enrichedOutputCols.map (fun c => (c, [some c, some c]))

/-! ## Date normalization (`parse_date_ddmmyyyy`, `normalize_date`) -/

/-- Check whether a list starts with a `\d{2}/\d{2}/\d{4}` window and return
its captured groups, the shared core of the scripts' date regexes. -/
def dateShapeAt : List Char →
    Option (Char × Char × Char × Char × Char × Char × Char × Char)
  | d1 :: d2 :: s1 :: m1 :: m2 :: s2 :: y1 :: y2 :: y3 :: y4 :: _ =>
    if s1 = '/' && s2 = '/' && d1.isDigit && d2.isDigit && m1.isDigit &&
       m2.isDigit && y1.isDigit && y2.isDigit && y3.isDigit && y4.isDigit then
      some (d1, d2, m1, m2, y1, y2, y3, y4)
    else none
  | _ => none

/-- `re.search(r"(\d{2})/(\d{2})/(\d{4})", s)`: leftmost window matching the
date pattern. -/
def searchDate : List Char →
    Option (Char × Char × Char × Char × Char × Char × Char × Char)
  | [] => none
  | c :: cs =>
    match dateShapeAt (c :: cs) with
    | some g => some g
    | none => searchDate cs

namespace Enrich

/-- `parse_date_ddmmyyyy` (enrich_with_distance.py, lines 59-65):
`re.search` for `(\d{2})/(\d{2})/(\d{4})` anywhere in the input; on a match
return `f"{yyyy}-{mm}-{dd}"`, otherwise the empty string. -/
def parse_date_ddmmyyyy (s : List Char) : List Char :=
  match searchDate s with
  | some (d1, d2, m1, m2, y1, y2, y3, y4) =>
      [y1, y2, y3, y4, '-', m1, m2, '-', d1, d2]
  | none => []

end Enrich

namespace NormalizeTsv

/-- `parse_date_ddmmyyyy` (normalize_tsv.py, lines 25-30) — normalize_tsv.py
repeats enrich_with_distance.py's definition verbatim. -/
def parse_date_ddmmyyyy (s : List Char) : List Char :=
  Enrich.parse_date_ddmmyyyy s

end NormalizeTsv

namespace PdfToTsv

/-- `normalize_date` (pdf_to_tsv.py, lines 73-80): strip the input, then
`re.match(r"(\d{2})/(\d{2})/(\d{4})", d)` — **anchored at the start** — and
on a match return the ISO form; on no match return the stripped input
unchanged ("au pire on laisse"). -/
def normalize_date (d : List Char) : List Char :=
  let s := stripStr d
  match dateShapeAt s with
  | some (d1, d2, m1, m2, y1, y2, y3, y4) =>
      [y1, y2, y3, y4, '-', m1, m2, '-', d1, d2]
  | none => s

end PdfToTsv

/-- A ten-character window of the shape `\d{2}/\d{2}/\d{4}`, stated
declaratively (independent of the scanners). -/
def IsDateWindow (w : List Char) : Prop :=
  ∃ d1 d2 m1 m2 y1 y2 y3 y4 : Char,
    w = [d1, d2, '/', m1, m2, '/', y1, y2, y3, y4] ∧
    d1.isDigit ∧ d2.isDigit ∧ m1.isDigit ∧ m2.isDigit ∧
    y1.isDigit ∧ y2.isDigit ∧ y3.isDigit ∧ y4.isDigit

/-- The input contains a `DD/MM/YYYY`-shaped substring. -/
def ContainsDate (l : List Char) : Prop :=
  ∃ p w q, l = p ++ w ++ q ∧ IsDateWindow w

/-- The `YYYY-MM-DD` output shape. -/
def isIsoShape : List Char → Bool
  | [y1, y2, y3, y4, s1, m1, m2, s2, d1, d2] =>
    s1 = '-' && s2 = '-' && y1.isDigit && y2.isDigit && y3.isDigit &&
    y4.isDigit && m1.isDigit && m2.isDigit && d1.isDigit && d2.isDigit
  | _ => false

/-! ## Location normalization (`normalize_loc`, enrich_with_distance.py 23-57) -/

/-- Transliteration table modelling `unidecode` on the accented Latin
letters that occur in this dataset (Quebec place names); `unidecode` maps
each of them to the plain ASCII letter (preserving case). -/
def accentTable : List (Char × List Char) := [
  ('à', ['a']), ('â', ['a']), ('ä', ['a']), ('á', ['a']), ('ã', ['a']), ('å', ['a']),
  ('è', ['e']), ('é', ['e']), ('ê', ['e']), ('ë', ['e']),
  ('ì', ['i']), ('í', ['i']), ('î', ['i']), ('ï', ['i']),
  ('ò', ['o']), ('ó', ['o']), ('ô', ['o']), ('ö', ['o']), ('õ', ['o']),
  ('ù', ['u']), ('ú', ['u']), ('û', ['u']), ('ü', ['u']),
  ('ç', ['c']), ('ñ', ['n']),
  ('À', ['A']), ('Â', ['A']), ('Ä', ['A']), ('Á', ['A']), ('Ã', ['A']), ('Å', ['A']),
  ('È', ['E']), ('É', ['E']), ('Ê', ['E']), ('Ë', ['E']),
  ('Ì', ['I']), ('Í', ['I']), ('Î', ['I']), ('Ï', ['I']),
  ('Ò', ['O']), ('Ó', ['O']), ('Ô', ['O']), ('Ö', ['O']), ('Õ', ['O']),
  ('Ù', ['U']), ('Ú', ['U']), ('Û', ['U']), ('Ü', ['U']),
  ('Ç', ['C']), ('Ñ', ['N'])]

/-- `unidecode` on one character: ASCII characters map to themselves, known
accented Latin letters to their base letter, any other non-ASCII character
to the empty string (as `unidecode` does for unmapped code points). -/
def asciiFold (c : Char) : List Char :=
  if c.toNat < 128 then [c]
  else
    match accentTable.find? (fun p => p.1 == c) with
    | some p => p.2
    | none => []

/-- `unidecode` on a string. -/
def foldStr (l : List Char) : List Char :=
  (l.map asciiFold).flatten

namespace Enrich

/-- Result record of `normalize_loc`:
`{"norm": …, "city": …, "region": …, "country": …}`. -/
structure LocInfo where
  norm : List Char
  city : List Char
  region : List Char
  country : List Char
deriving DecidableEq, Repr

/-- `PROV_STATE_TO_COUNTRY` (enrich_with_distance.py, lines 23-35). -/
def PROV_STATE_TO_COUNTRY : List (String × String) := [
  ("AB", "Canada"), ("BC", "Canada"), ("MB", "Canada"), ("NB", "Canada"),
  ("NL", "Canada"), ("NS", "Canada"), ("NT", "Canada"), ("NU", "Canada"),
  ("ON", "Canada"), ("PE", "Canada"), ("QC", "Canada"), ("SK", "Canada"),
  ("YT", "Canada"), ("PQ", "Canada"),
  ("AL", "USA"), ("AK", "USA"), ("AZ", "USA"), ("AR", "USA"), ("CA", "USA"),
  ("CO", "USA"), ("CT", "USA"), ("DE", "USA"), ("FL", "USA"), ("GA", "USA"),
  ("HI", "USA"), ("ID", "USA"), ("IL", "USA"), ("IN", "USA"), ("IA", "USA"),
  ("KS", "USA"), ("KY", "USA"), ("LA", "USA"), ("ME", "USA"), ("MD", "USA"),
  ("MA", "USA"), ("MI", "USA"), ("MN", "USA"), ("MS", "USA"), ("MO", "USA"),
  ("MT", "USA"), ("NE", "USA"), ("NV", "USA"), ("NH", "USA"), ("NJ", "USA"),
  ("NM", "USA"), ("NY", "USA"), ("NC", "USA"), ("ND", "USA"), ("OH", "USA"),
  ("OK", "USA"), ("OR", "USA"), ("PA", "USA"), ("RI", "USA"), ("SC", "USA"),
  ("SD", "USA"), ("TN", "USA"), ("TX", "USA"), ("UT", "USA"), ("VT", "USA"),
  ("VA", "USA"), ("WA", "USA"), ("WV", "USA"), ("WI", "USA"), ("WY", "USA")]

/-- `PROV_STATE_TO_COUNTRY.get(code, "")`. -/
def provLookup (code : List Char) : List Char :=
  match PROV_STATE_TO_COUNTRY.find? (fun p => p.1.toList == code) with
  | some p => p.2.toList
  | none => []

/-- `\s*([A-Za-z]{2})` anchored at `$`: the tail of the city/region regex
after its comma.  Greedy `\s*` needs no backtracking here because letters
are never whitespace, so the boundary between `\s*` and the two letters is
forced. -/
def matchTailRegion : List Char → Option (Char × Char)
  | [] => none
  | [_] => none
  | [a, b] => if a.isAlpha && b.isAlpha then some (a, b) else none
  | c :: c2 :: c3 :: cs =>
    if isPySpace c then matchTailRegion (c2 :: c3 :: cs) else none

/-- Scanner for `re.match(r"^(.+?),\s*([A-Za-z]{2})$", txt)`: Python tries
the shortest group-1 first, i.e. the leftmost comma whose tail matches
`\s*[A-Za-z]{2}$`; group 1 (`.+?`) must be non-empty and may not span a
newline.  `pre` holds the characters consumed so far, reversed. -/
def goCR (pre : List Char) : List Char → Option (List Char × Char × Char)
  | [] => none
  | c :: cs =>
    if c == ',' && !pre.isEmpty && !pre.contains '\n' then
      match matchTailRegion cs with
      | some (a, b) => some (pre.reverse, a, b)
      | none => goCR (c :: pre) cs
    else goCR (c :: pre) cs

/-- `re.match(r"^(.+?),\s*([A-Za-z]{2})$", txt)`. -/
def matchCityRegion (t : List Char) : Option (List Char × Char × Char) :=
  goCR [] t

/-- `normalize_loc` (enrich_with_distance.py, lines 41-57), on the character
list of the raw string: empty/whitespace input yields the all-empty record;
otherwise the stripped input is transliterated, matched against
`^(.+?),\s*([A-Za-z]{2})$`; on no match the lowercased text is both key and
city; on a match the region code is uppercased, `PQ` rewritten to `QC`, the
country looked up, and the key is `"city,code[,country]"` lowercased. -/
def normalize_locL (raw : List Char) : LocInfo :=
  let s := stripStr raw
  if s.isEmpty then ⟨[], [], [], []⟩
  else
    let txt := foldStr s
    match matchCityRegion txt with
    | none => ⟨pyLowerStr txt, pyLowerStr txt, [], []⟩
    | some (g1, a, b) =>
      let city := stripStr g1
      let code0 := [pyUpper a, pyUpper b]
      let code := if code0 = ['P', 'Q'] then ['Q', 'C'] else code0
      let country := provLookup code
      let norm :=
        if country.isEmpty then pyLowerStr (city ++ ',' :: code)
        else pyLowerStr (city ++ ',' :: code ++ ',' :: country)
      ⟨norm, pyLowerStr city, code, country⟩

/-- `normalize_loc` on a Python string. -/
def normalize_loc (raw : String) : LocInfo :=
  normalize_locL raw.toList

/-- The key-construction step of `normalize_loc`, applied to the
transliterated stripped text (the part of `normalize_locL` after the
`unidecode`/strip prelude).  Factoring the function this way lets us show
the key depends only on the lowercased text. -/
def normKeyCore (t : List Char) : List Char :=
  match matchCityRegion t with
  | none => pyLowerStr t
  | some (g1, a, b) =>
    let city := stripStr g1
    let code0 := [pyUpper a, pyUpper b]
    let code := if code0 = ['P', 'Q'] then ['Q', 'C'] else code0
    let country := provLookup code
    if country.isEmpty then pyLowerStr (city ++ ',' :: code)
    else pyLowerStr (city ++ ',' :: code ++ ',' :: country)

/-! ## The fused-field splitter (`split_origin_destination`,
enrich_with_distance.py 78-104; `split_origin_dest_revenue`,
normalize_tsv.py 32-52) -/

/-- Tail test of `^(.*?,[A-Za-z]{2})\s+(.*?,[A-Za-z]{2})$` after the `\s+`
run: the second group matches the remaining suffix `g2` exactly when `g2`
ends in `,` + two ASCII letters and its body contains no newline (the
lazy `.*?` is forced to the whole body by the `$` anchor). -/
def validG2 (g2 : List Char) : Bool :=
  match g2.reverse with
  | y :: x :: cm :: u => cm == ',' && x.isAlpha && y.isAlpha && !(u.contains '\n')
  | _ => false

/-- One stop of the lazy outer `.*?` of
`^(.*?,[A-Za-z]{2})\s+(.*?,[A-Za-z]{2})$`: the first group closes here if
the current character is `,` followed by two ASCII letters and at least one
`\s`; the greedy `\s+` then swallows the whole whitespace run (whitespace
includes `\n`, so giving back spaces can never cure a failing tail, and the
tail's end test does not move), and the rest must satisfy `validG2`. -/
def tryCandidate (pre : List Char) (c : Char) (cs : List Char) :
    Option (List Char × List Char) :=
  if c == ',' then
    match cs with
    | c1 :: c2 :: c3 :: rest =>
      if c1.isAlpha && c2.isAlpha && isPySpace c3 then
        let g2 := (c3 :: rest).dropWhile isPySpace
        if validG2 g2 then some (pre.reverse ++ [c, c1, c2], g2) else none
      else none
    | _ => none
  else none

/-- Scanner for `re.match(r"^(.*?,[A-Za-z]{2})\s+(.*?,[A-Za-z]{2})$", t)`:
the lazy `.*?` grows one character at a time (it may cross commas whose
candidate fails, but never a newline), and the first successful stop wins. -/
def goTC (pre l : List Char) : Option (List Char × List Char) :=
  match l with
  | [] => none
  | c :: cs =>
    match tryCandidate pre c cs with
    | some r => some r
    | none => if c == '\n' then none else goTC (c :: pre) cs

/-- `re.match(r"^(.*?,[A-Za-z]{2})\s+(.*?,[A-Za-z]{2})$", t)`, returning the
two captured groups. -/
def matchTwoCities (t : List Char) : Option (List Char × List Char) :=
  goTC [] t

/-- The optional `(?:\.\d{1,2})?` after the integer digits of a
`(\d+(?:\.\d{1,2})?)` token: greedy, takes `.` plus one or two digits when
present; returns the consumed part and the remainder. -/
def fracPart (rest : List Char) : List Char × List Char :=
  match rest with
  | p :: d1 :: more =>
    if p == '.' && d1.isDigit then
      match more with
      | d2 :: r2 =>
        if d2.isDigit then ([p, d1, d2], r2) else ([p, d1], d2 :: r2)
      | [] => ([p, d1], [])
    else ([], rest)
  | _ => ([], rest)

/-- Left-to-right scan of `re.finditer(r"(\d+(?:\.\d{1,2})?)", t)`, keeping
the last match as `(start index, matched token)`.  At a digit the token is
the maximal digit run plus an optional `fracPart`, and scanning resumes
after it.  The `fuel` argument only bounds the recursion; every step
consumes at least one character, so `fuel = l.length` (as passed by
`lastNum`) never runs out. -/
def lastNumGoF (fuel : Nat) (pos : Nat) (l : List Char)
    (acc : Option (Nat × List Char)) : Option (Nat × List Char) :=
  match fuel with
  | 0 => acc
  | fuel' + 1 =>
    match l with
    | [] => acc
    | c :: cs =>
      if c.isDigit then
        let ds := (c :: cs).takeWhile Char.isDigit
        let fr := fracPart ((c :: cs).dropWhile Char.isDigit)
        lastNumGoF fuel' (pos + ds.length + fr.1.length) fr.2
          (some (pos, ds ++ fr.1))
      else lastNumGoF fuel' (pos + 1) cs acc

/-- `list(re.finditer(r"(\d+(?:\.\d{1,2})?)", t))[-1]` as an option:
start index and token of the last number in `t`, if any. -/
def lastNum (t : List Char) : Option (Nat × List Char) :=
  lastNumGoF t.length 0 t none

/-- The string-level work of `split_origin_destination`: strip, find the
last number (the revenue token) and cut the string before it (stripping
again), then try the two-city split; on success the stripped groups are
returned, otherwise origin and destination are left empty.  The revenue
token is carried unparsed. -/
def split_core (text : List Char) : List Char × List Char × Option (List Char) :=
  let t0 := stripStr text
  let p : List Char × Option (List Char) :=
    match lastNum t0 with
    | none => (t0, none)
    | some st => (stripStr (t0.take st.1), some st.2)
  match matchTwoCities p.1 with
  | some g => (stripStr g.1, stripStr g.2, p.2)
  | none => ([], [], p.2)

/-- `split_origin_destination` (enrich_with_distance.py, lines 78-104):
origin, destination and revenue from a fused field; `math.nan` is modelled
as `none`.  (The `isinstance` guard is untranslated: the embedding's inputs
are always strings.) -/
def split_origin_destination (text : List Char) :
    List Char × List Char × Option ℚ :=
  ((split_core text).1, (split_core text).2.1,
    (split_core text).2.2.bind to_float)

end Enrich

namespace NormalizeTsv

/-- `split_origin_dest_revenue` (normalize_tsv.py, lines 32-52): a verbatim
copy of the enricher's splitter (normalize_tsv.py's local `to_float` skips
the initial `strip`, which the regex substitution makes redundant). -/
def split_origin_dest_revenue (text : List Char) :
    List Char × List Char × Option ℚ :=
  Enrich.split_origin_destination text

end NormalizeTsv

/-- A list ending in a comma and two ASCII letters — the shape both capture
groups of the two-city regex always have. -/
def EndsCityCode (o : List Char) : Prop :=
  ∃ u x y, o = u ++ [',', x, y] ∧ x.isAlpha = true ∧ y.isAlpha = true

namespace PdfToTsv

/-! ## PDF table-row mapping (`map_row_from_table`, pdf_to_tsv.py 109-194;
`process_pdf`, pdf_to_tsv.py 271-296) -/

/-- Word-boundary helper: `\b` holds against a preceding character (or the
string edge, `none`) iff that character is not a word character. -/
def prevNonWord : Option Char → Bool
  | none => true
  | some c => !isWordChar c

/-- Word-boundary helper for the character following a match. -/
def nextNonWord (l : List Char) : Bool :=
  match l.head? with
  | none => true
  | some c => !isWordChar c

/-- `re.search(r"\b(\d{5})\b", s)`: leftmost run of exactly five digits
delimited by word boundaries; returns the five digits.  `prev` is the
character before the current position (`none` at the start). -/
def find5Go (prev : Option Char) (l : List Char) : Option (List Char) :=
  match l with
  | d1 :: d2 :: d3 :: d4 :: d5 :: rest =>
    if prevNonWord prev && d1.isDigit && d2.isDigit && d3.isDigit &&
        d4.isDigit && d5.isDigit && nextNonWord rest then
      some [d1, d2, d3, d4, d5]
    else find5Go (some d1) (d2 :: d3 :: d4 :: d5 :: rest)
  | _ => none

/-- `re.search(r"\b(\d{5})\b", s)`. -/
def find5 (l : List Char) : Option (List Char) :=
  find5Go none l

/-- `re.search(r"\b(\d{2}/\d{2}/\d{4})\b", s)`: leftmost date-shaped window
delimited by word boundaries; returns the ten matched characters. -/
def findDateBGo (prev : Option Char) (l : List Char) : Option (List Char) :=
  match l with
  | [] => none
  | c :: cs =>
    match dateShapeAt (c :: cs) with
    | some (d1, d2, m1, m2, y1, y2, y3, y4) =>
      if prevNonWord prev && nextNonWord ((c :: cs).drop 10) then
        some [d1, d2, '/', m1, m2, '/', y1, y2, y3, y4]
      else findDateBGo (some c) cs
    | none => findDateBGo (some c) cs

/-- `re.search(r"\b(\d{2}/\d{2}/\d{4})\b", s)`. -/
def findDateB (l : List Char) : Option (List Char) :=
  findDateBGo none l

/-- `re.search(r",[A-Z]{2}$", cell)`: the cell ends with a comma and two
uppercase letters (Python's `$` also matches just before one final
newline). -/
def endsCityRev (r : List Char) : Bool :=
  match r with
  | b :: a :: cm :: _ => cm == ',' && isUpperAZ a && isUpperAZ b
  | _ => false

/-- `re.search(r",[A-Z]{2}$", cell)` on the cell itself. -/
def cellEndsCity (cell : List Char) : Bool :=
  match cell.reverse with
  | c :: rest => if c == '\n' then endsCityRev rest else endsCityRev (c :: rest)
  | [] => false

/-- `first_city_idx(start)` (pdf_to_tsv.py, lines 129-133): the first index
`i ≥ start` whose cell matches `,[A-Z]{2}$`; `i` counts from 0 over the full
cell list. -/
def firstCityIdxGo (i start : Nat) : List (List Char) → Option Nat
  | [] => none
  | c :: cs =>
    if start ≤ i && cellEndsCity c then some i else firstCityIdxGo (i + 1) start cs

/-- `first_city_idx(start)` over the whole cell list. -/
def firstCityIdx (cells : List (List Char)) (start : Nat) : Option Nat :=
  firstCityIdxGo 0 start cells

/-- Maximal non-whitespace words of a string (`re.split(r"\s+")` without the
empty edge pieces); `cur` holds the reversed current word. -/
def splitWordsGo (cur : List Char) : List Char → List (List Char)
  | [] => if cur.isEmpty then [] else [cur.reverse]
  | c :: cs =>
    if isPySpace c then
      if cur.isEmpty then splitWordsGo [] cs
      else cur.reverse :: splitWordsGo [] cs
    else splitWordsGo (c :: cur) cs

/-- `collapse_spaces` (pdf_to_tsv.py, lines 85-86):
`re.sub(r"\s+", " ", s).strip()` — the words of `s` joined by single
spaces. -/
def collapse_spaces (s : List Char) : List Char :=
  List.intercalate [' '] (splitWordsGo [] s)

/-- `s.replace("CA", "")`: remove non-overlapping occurrences of `CA`,
scanning left to right. -/
def removeCA (l : List Char) : List Char :=
  match l with
  | a :: b :: rest =>
    if a == 'C' && b == 'A' then removeCA rest else a :: removeCA (b :: rest)
  | other => other

/-- `clean_money` (pdf_to_tsv.py, lines 55-71): strip; empty gives `0.0`;
remove `CA` and `$`, map OCR `O` to `0`, remove spaces and commas; `float`,
with any parse failure giving `0.0`.  (The `None`/numeric fast paths are
untranslated: the embedding's inputs are strings.) -/
def clean_money (x : List Char) : ℚ :=
  let s := stripStr x
  if s.isEmpty then 0
  else
    let s1 := (removeCA s).filter (fun c => !(c == '$'))
    let s2 := s1.map (fun c => if c == 'O' then '0' else c)
    let s3 := s2.filter (fun c => !(c == ' ') && !(c == ','))
    match parseFloat s3 with
    | some q => q
    | none => 0

/-- Exactly `k` leading digits (the backtracking stops of the greedy
`\d{1,3}`). -/
def leadDigits (k : Nat) (l : List Char) : Bool :=
  (l.take k).length == k && (l.take k).all Char.isDigit

/-- Greedy `(?:,\d{3})*`: consume maximal `,ddd` groups, returning the
consumed part and the remainder.  (Giving a group back cannot help: the
next required character is `.`, never `,`.) -/
def starGroups (l : List Char) : List Char × List Char :=
  match l with
  | cm :: e1 :: e2 :: e3 :: rest =>
    if cm == ',' && e1.isDigit && e2.isDigit && e3.isDigit then
      let p := starGroups rest
      (cm :: e1 :: e2 :: e3 :: p.1, p.2)
    else ([], l)
  | _ => ([], l)

/-- One anchored attempt of `\d{1,3}(?:,\d{3})*\.\d{2}` with the leading
`\d{1,3}` fixed at `k` digits. -/
def tryMoneyK (k : Nat) (l : List Char) : Option (List Char × List Char) :=
  if leadDigits k l then
    let sg := starGroups (l.drop k)
    match sg.2 with
    | p :: e1 :: e2 :: r2 =>
      if p == '.' && e1.isDigit && e2.isDigit then
        some (l.take k ++ sg.1 ++ [p, e1, e2], r2)
      else none
    | _ => none
  else none

/-- `\d{1,3}(?:,\d{3})*\.\d{2}` anchored at the current position: the
greedy `\d{1,3}` tries 3, 2, then 1 digits. -/
def moneyAt (l : List Char) : Option (List Char × List Char) :=
  match tryMoneyK 3 l with
  | some r => some r
  | none =>
    match tryMoneyK 2 l with
    | some r => some r
    | none => tryMoneyK 1 l

/-- `re.findall(r"\d{1,3}(?:,\d{3})*\.\d{2}", s)`: left-to-right
non-overlapping matches, resuming after each match.  Every step consumes at
least one character, so `fuel = l.length` (as passed by `moneyFindall`)
never runs out. -/
def moneyFindGo (fuel : Nat) (l : List Char) : List (List Char) :=
  match fuel with
  | 0 => []
  | fuel' + 1 =>
    match l with
    | [] => []
    | c :: cs =>
      match moneyAt (c :: cs) with
      | some r => r.1 :: moneyFindGo fuel' r.2
      | none => moneyFindGo fuel' cs

/-- `re.findall(r"\d{1,3}(?:,\d{3})*\.\d{2}", s)`. -/
def moneyFindall (l : List Char) : List (List Char) :=
  moneyFindGo l.length l

/-- The right-to-left rescue scan (pdf_to_tsv.py, lines 166-171): walk the
cells in reverse, appending each cell's money tokens reversed, until at
least three tokens are collected. -/
def backScan (rcells : List (List Char)) (nums : List (List Char)) :
    List (List Char) :=
  match rcells with
  | [] => nums
  | c :: cs =>
    let nums2 := nums ++ (moneyFindall c).reverse
    if 3 ≤ nums2.length then nums2 else backScan cs nums2

/-- One extracted record (the dict built at pdf_to_tsv.py, lines 175-184). -/
structure PdfRec where
  order_no : List Char
  req_pu_date : List Char
  customer : List Char
  origin : List Char
  destination : List Char
  revenue : ℚ
  cost : ℚ
  margin : ℚ
deriving DecidableEq, Repr

/-- `re.sub("-", "/", date)`. -/
def subDashSlash (l : List Char) : List Char :=
  l.map (fun c => if c == '-' then '/' else c)

/-- The customer loop (pdf_to_tsv.py, lines 148-157): walk the cells,
stopping at the first cell equal to `origin`, skipping cells equal to the
order token or to the date with `-` replaced by `/`. -/
def collectCustomer (order dateSub origin : List Char) :
    List (List Char) → List (List Char)
  | [] => []
  | c :: cs =>
    if c == origin then []
    else if c == order || c == dateSub then collectCustomer order dateSub origin cs
    else c :: collectCustomer order dateSub origin cs

/-- `map_row_from_table` (pdf_to_tsv.py, lines 109-194).  `Except.error ()`
models the uncaught `ValueError` of the triple unpacking
`rev, cost, margin = (clean_money(n) for n in nums)` when `nums` has one or
two elements; `.ok none` models `return None`. -/
def map_row_from_table (row : List (List Char)) :
    Except Unit (Option PdfRec) :=
  if row.isEmpty then .ok none
  else
    let joined := List.intercalate [' '] row
    let cells := row.filter (fun c => !c.isEmpty)
    match find5 joined with
    | none => .ok none
    | some order =>
      let date :=
        match findDateB joined with
        | some dt => normalize_date dt
        | none => []
      if cells.length < 6 then .ok none
      else if date.isEmpty then .ok none
      else
        let oi := firstCityIdx cells 0
        let di :=
          match oi with
          | some i => firstCityIdx cells (i + 1)
          | none => none
        let origin := match oi with | some i => cells.getD i [] | none => []
        let dest := match di with | some i => cells.getD i [] | none => []
        let customer := collapse_spaces (List.intercalate [' ']
          (collectCustomer order (subDashSlash date) origin cells))
        let tail := cells.drop (cells.length - 3)
        let nums := (tail.map moneyFindall).flatten
        let nums2 :=
          if nums.length < 3 then backScan cells.reverse nums else nums
        let nums3 :=
          if nums2.isEmpty then ["0.00".toList, "0.00".toList, "0.00".toList]
          else nums2.drop (nums2.length - 3)
        match nums3 with
        | [n1, n2, n3] =>
          if !customer.isEmpty && (!origin.isEmpty || !dest.isEmpty) then
            .ok (some ⟨order, date, customer, origin, dest,
              clean_money n1, clean_money n2, clean_money n3⟩)
          else .ok none
        | _ => .error ()

/-- Whether `process_pdf`'s final filter
`df["order_no"].astype(str).str.fullmatch(r"\d{5}")` (pdf_to_tsv.py,
line 288) keeps a record. -/
def keepRecord (r : PdfRec) : Bool :=
  r.order_no.length == 5 && r.order_no.all Char.isDigit

/-- The record filter of `process_pdf` (pdf_to_tsv.py, lines 285-288). -/
def processKeep (recs : List PdfRec) : List PdfRec :=
  recs.filter keepRecord

/-- A well-formed sample row: order, customer, two cities, date, three
money cells. -/
def sampleRow : List (List Char) :=
  ["21401".toList, "CUSTX".toList, "X,QC".toList, "B,QC".toList,
   "04/01/2024".toList, "1.00".toList, "2.00".toList, "3.00".toList]

/-- The record `map_row_from_table` extracts from `sampleRow`. -/
def sampleRec : PdfRec :=
  ⟨"21401".toList, "2024-01-04".toList, "CUSTX".toList, "X,QC".toList,
   "B,QC".toList, clean_money "1.00".toList, clean_money "2.00".toList,
   clean_money "3.00".toList⟩

/-- A row with a perfect five-digit order number but nothing between the
order cell and the origin cell, so the reconstructed customer is empty. -/
def rowNoCustomer : List (List Char) :=
  ["21401".toList, "X,QC".toList, "B,QC".toList, "04/01/2024".toList,
   "1.00".toList, "2.00".toList, "3.00".toList]

/-- A row whose leading token is the non-digit `ABC12`, with a stray
five-digit number in a later cell. -/
def rowBadLead : List (List Char) :=
  ["ABC12".toList, "12345".toList, "CUSTX".toList, "X,QC".toList,
   "B,QC".toList, "04/01/2024".toList, "1.00".toList, "2.00".toList,
   "3.00".toList]

end PdfToTsv

namespace Enrich

/-! ## Geocoding and distances (`get_coords`, `ors_distance_km`,
`pair_distance`, enrich_with_distance.py 181-256).  The remote services are
modelled as oracle parameters (`G` for a whole `geocode()` resolution —
one or two HTTP requests —, `R` for the ORS routing request, `hav` for the
`haversine` library), and every remote call is logged as a `GeoEvent`. -/

/-- A row of the location cache (the dict built at
enrich_with_distance.py, line 215). -/
structure LocRow where
  location : List Char
  norm : List Char
  lat : ℚ
  lon : ℚ
  country : List Char
deriving DecidableEq, Repr

/-- A row of the distance cache (the dict built at
enrich_with_distance.py, line 254). -/
structure DistRow where
  origin_norm : List Char
  dest_norm : List Char
  distance_km : ℚ
  method : List Char
deriving DecidableEq, Repr

/-- One remote call: a `geocode()` resolution for a normalized location, or
an ORS routing request for a coordinate pair. -/
inductive GeoEvent where
  | geocodeCall (norm : List Char) (country : List Char)
  | routeCall (a b : ℚ × ℚ)
deriving DecidableEq, Repr

/-- `get_coords` (enrich_with_distance.py, lines 205-219): empty key gives
nothing; else answer from the location cache; else ask the geocoder `G`
(logged), appending a successful answer to the cache.  A failed geocode is
**not** cached. -/
def get_coords (G : List Char → List Char → Option (ℚ × ℚ))
    (loc : List Char) (cache : List LocRow) :
    Option (ℚ × ℚ) × List LocRow × List GeoEvent :=
  let info := normalize_locL loc
  if info.norm.isEmpty then (none, cache, [])
  else
    match cache.find? (fun r => r.norm == info.norm) with
    | some row => (some (row.lat, row.lon), cache, [])
    | none =>
      match G info.norm info.country with
      | some c =>
          (some c, cache ++ [⟨loc, info.norm, c.1, c.2, info.country⟩],
            [.geocodeCall info.norm info.country])
      | none => (none, cache, [.geocodeCall info.norm info.country])

/-- `ors_distance_km` (enrich_with_distance.py, lines 221-232): without an
API key no request is made and the result is `None`; with a key the routing
service `R` is asked (logged). -/
def ors_distance_km (hasKey : Bool) (R : ℚ × ℚ → ℚ × ℚ → Option ℚ)
    (a b : ℚ × ℚ) : Option ℚ × List GeoEvent :=
  if hasKey then (R a b, [.routeCall a b]) else (none, [])

/-- `pair_distance` (enrich_with_distance.py, lines 234-256): empty keys
give nothing; else answer from the distance cache; else resolve **both**
coordinates (both geocodes run even if the first fails), then try routing,
falling back to `haversine * 1.2`, and append the new row (tagged `"ors"`
or `"haversine_x1.2"`) to the distance cache.  Python's float literal `1.2`
is the rational `12/10`. -/
def pair_distance (hasKey : Bool) (G : List Char → List Char → Option (ℚ × ℚ))
    (R : ℚ × ℚ → ℚ × ℚ → Option ℚ) (hav : ℚ × ℚ → ℚ × ℚ → ℚ)
    (origin dest : List Char)
    (loc_cache : List LocRow) (dist_cache : List DistRow) :
    Option ℚ × List LocRow × List DistRow × List GeoEvent :=
  let onk := (normalize_locL origin).norm
  let dnk := (normalize_locL dest).norm
  if onk.isEmpty || dnk.isEmpty then (none, loc_cache, dist_cache, [])
  else
    match dist_cache.find? (fun r => r.origin_norm == onk && r.dest_norm == dnk) with
    | some row => (some row.distance_km, loc_cache, dist_cache, [])
    | none =>
      let r1 := get_coords G origin loc_cache
      let r2 := get_coords G dest r1.2.1
      match r1.1, r2.1 with
      | some oc, some dc =>
        let rr := ors_distance_km hasKey R oc dc
        match rr.1 with
        | some d =>
          (some d, r2.2.1, dist_cache ++ [⟨onk, dnk, d, "ors".toList⟩],
            r1.2.2 ++ r2.2.2 ++ rr.2)
        | none =>
          (some (hav oc dc * (12 / 10)), r2.2.1,
            dist_cache ++ [⟨onk, dnk, hav oc dc * (12 / 10),
              "haversine_x1.2".toList⟩],
            r1.2.2 ++ r2.2.2 ++ rr.2)
      | _, _ => (none, r2.2.1, dist_cache, r1.2.2 ++ r2.2.2)

/-- The always-failing geocoder (no match found upstream). -/
def geoOracleNone : List Char → List Char → Option (ℚ × ℚ) := fun _ _ => none

/-- A geocoder that resolves everything to the origin of coordinates. -/
def geoOracleConst : List Char → List Char → Option (ℚ × ℚ) :=
  fun _ _ => some (0, 0)

/-- A routing service that never answers. -/
def routeOracleNone : ℚ × ℚ → ℚ × ℚ → Option ℚ := fun _ _ => none

/-- A constant haversine oracle (100 km between any two points). -/
def havConst : ℚ × ℚ → ℚ × ℚ → ℚ := fun _ _ => 100

end Enrich

/-! # Theorems -/

/-! ### Claim C10 -/

/-- **C10** (amended): the enricher computes `margin_per_km` from the
arithmetic difference `revenue - cost` divided by the distance — the parsed
`margin` column has no influence on it at all — but for a row where the
parsed margin disagrees with `revenue - cost` the value `margin_per_km` is
not always different from `round(margin / distance_km, 4)`: the two ratios
can round to the same four decimals.  First conjunct: `margin_per_km` is
invariant under changing the parsed margin.  Second conjunct: a concrete row
where the difference-based value (3) differs from the margin-based value
(50), witnessing that the difference, not the margin, is used. -/
theorem C10_margin_from_difference :
    (∀ rev cost dist m m' : Option ℚ,
      (Enrich.enrichDerived rev cost m dist).margin_per_km
        = (Enrich.enrichDerived rev cost m' dist).margin_per_km) ∧
    ((Enrich.enrichDerived (some 10) (some 4) (some 100) (some 2)).margin_per_km
        = some 3
      ∧ Enrich.safe_ratio (some 100) (some 2) = some 50
      ∧ (3 : ℚ) ≠ 50) := by
  refine ⟨fun rev cost dist m m' => rfl, ?_, ?_, by norm_num⟩
  · norm_num [Enrich.enrichDerived, Enrich.safe_ratio, Enrich.optSub,
      Enrich.round4, Enrich.roundHalfEven]
  · norm_num [Enrich.safe_ratio, Enrich.round4, Enrich.roundHalfEven]

/-- **C10** counterexample to the claim as stated: a row whose parsed margin
(`1.00001`) disagrees with `revenue - cost` (`2 - 1 = 1`) and whose distance
is `10`, yet `margin_per_km` equals `round(margin / distance_km, 4)` anyway,
because `round4(1/10) = round4(1.00001/10) = 0.1`. -/
theorem C10_margin_counterexample :
    (some ((100001 : ℚ)/100000) ≠ Enrich.optSub (some 2) (some 1)) ∧
    (Enrich.enrichDerived (some 2) (some 1) (some ((100001 : ℚ)/100000))
        (some 10)).margin_per_km
      = Enrich.safe_ratio (some ((100001 : ℚ)/100000)) (some 10) := by
  constructor
  · norm_num [Enrich.optSub]
  · norm_num [Enrich.enrichDerived, Enrich.safe_ratio, Enrich.optSub,
      Enrich.round4, Enrich.roundHalfEven]

/-! ### Claim C2 -/

/-- **C2** (amended): when one input file is missing required columns,
`enrich_file` raises a `ValueError` and `main` has no exception handler, so
the whole batch aborts: files before the bad one are processed, the bad file
and **every file after it** are not.  (The claim said the file is logged,
dropped and processing continues; the code aborts instead.) -/
theorem C2_missing_columns_abort
    (pre : List Enrich.TsvFile) (bad : Enrich.TsvFile) (post : List Enrich.TsvFile)
    (hpre : ∀ f ∈ pre, Enrich.missingCols f.cols = [])
    (hbad : Enrich.missingCols bad.cols ≠ []) :
    Enrich.enrichMain (pre ++ bad :: post)
      = (pre.map (·.name), some (bad.name ++ ": colonnes manquantes")) := by
  induction pre with
  | nil =>
      simp only [List.nil_append, Enrich.enrichMain, Enrich.enrichFileCheck,
        if_neg hbad, List.map_nil]
  | cons f fs ih =>
      have hf : Enrich.missingCols f.cols = [] := hpre f (by simp)
      have ih' := ih (fun g hg => hpre g (by simp [hg]))
      simp only [List.cons_append, Enrich.enrichMain, Enrich.enrichFileCheck,
        if_pos hf, List.append_eq, ih', List.map_cons]

/-- **C2** counterexample to the claim as stated: in a batch of three files
where the second is missing columns, the run aborts with an error after
processing only the first file; the third (well-formed) file is never
processed, contradicting "drops that file and continues processing the
remaining files". -/
theorem C2_missing_columns_counterexample :
    Enrich.enrichMain
      [⟨"orders2023.tsv", Enrich.requiredCols⟩,
       ⟨"orders2024.tsv", ["order_no"]⟩,
       ⟨"orders2025.tsv", Enrich.requiredCols⟩]
      = (["orders2023.tsv"], some "orders2024.tsv: colonnes manquantes") := by
  decide

/-- **C2** witness: the amended theorem applied to that concrete batch. -/
theorem C2_missing_columns_abort_witness :
    Enrich.enrichMain
      [⟨"orders2022.tsv", Enrich.requiredCols⟩,
       ⟨"orders2021.tsv", ["customer", "origin"]⟩]
      = (["orders2022.tsv"], some ("orders2021.tsv" ++ ": colonnes manquantes")) :=
  C2_missing_columns_abort [⟨"orders2022.tsv", Enrich.requiredCols⟩]
    ⟨"orders2021.tsv", ["customer", "origin"]⟩ []
    (by decide) (by decide)

/-- **C3**: the merger aligns every input to `EXPECTED_COLS`, synthesizing
missing columns as empty — but `EXPECTED_COLS` names the derived column
`rate_per_km` while the enricher produces `revenue_per_km`, so on the
enricher's own output the merger drops the `revenue_per_km` data and emits a
synthesized all-`NA` `rate_per_km` column instead of preserving it.  This
theorem evaluates the alignment at the enricher's output schema: the output
column set is exactly `EXPECTED_COLS`, `revenue_per_km` is gone, and
`rate_per_km` is all-missing even though the input carried `revenue_per_km`
data in every row. -/
theorem C3_merge_drops_revenue_per_km :
    (Merge.alignColumns enrichedSample).map Prod.fst = Merge.EXPECTED_COLS
    ∧ "revenue_per_km" ∉ (Merge.alignColumns enrichedSample).map Prod.fst
    ∧ (Merge.alignColumns enrichedSample).find? (fun p => p.1 == "rate_per_km")
        = some ("rate_per_km", [none, none])
    ∧ enrichedSample.find? (fun p => p.1 == "revenue_per_km")
        = some ("revenue_per_km", [some "revenue_per_km", some "revenue_per_km"]) := by
  refine ⟨by decide, by decide, by decide, by decide⟩

/-- A successful `dateShapeAt` exhibits a leading date window with digit
groups. -/
theorem dateShapeAt_eq_some (l : List Char) (d1 d2 m1 m2 y1 y2 y3 y4 : Char)
    (h : dateShapeAt l = some (d1, d2, m1, m2, y1, y2, y3, y4)) :
    (∃ rest, l = [d1, d2, '/', m1, m2, '/', y1, y2, y3, y4] ++ rest) ∧
    d1.isDigit ∧ d2.isDigit ∧ m1.isDigit ∧ m2.isDigit ∧
    y1.isDigit ∧ y2.isDigit ∧ y3.isDigit ∧ y4.isDigit := by
  rcases l with _ | ⟨c1, _ | ⟨c2, _ | ⟨c3, _ | ⟨c4, _ | ⟨c5, _ | ⟨c6,
    _ | ⟨c7, _ | ⟨c8, _ | ⟨c9, _ | ⟨c10, rest⟩⟩⟩⟩⟩⟩⟩⟩⟩⟩ <;>
    simp only [dateShapeAt] at h
  all_goals try exact Option.noConfusion h
  split at h
  · rename_i hc
    simp only [Bool.and_eq_true, decide_eq_true_eq] at hc
    obtain ⟨⟨⟨⟨⟨⟨⟨⟨⟨hs1, hs2⟩, h1⟩, h2⟩, h3⟩, h4⟩, h5⟩, h6⟩, h7⟩, h8⟩ := hc
    injection h with h
    simp only [Prod.mk.injEq] at h
    obtain ⟨rfl, rfl, rfl, rfl, rfl, rfl, rfl, rfl⟩ := h
    subst hs1
    subst hs2
    exact ⟨⟨rest, rfl⟩, h1, h2, h3, h4, h5, h6, h7, h8⟩
  · exact absurd h (by simp)

/-- `dateShapeAt` fires on every list starting with a date window. -/
theorem dateShapeAt_of_window (w q : List Char) (hwin : IsDateWindow w) :
    (dateShapeAt (w ++ q)).isSome := by
  obtain ⟨d1, d2, m1, m2, y1, y2, y3, y4, rfl, h1, h2, h3, h4, h5, h6, h7, h8⟩ := hwin
  simp [dateShapeAt, h1, h2, h3, h4, h5, h6, h7, h8]

/-- The date search succeeds exactly on inputs containing a date window. -/
theorem searchDate_some_iff (l : List Char) :
    (searchDate l).isSome ↔ ContainsDate l := by
  induction l with
  | nil =>
      simp only [searchDate, Option.isSome_none, Bool.false_eq_true, false_iff]
      rintro ⟨p, w, q, hl, d1, d2, m1, m2, y1, y2, y3, y4, rfl, -⟩
      simp at hl
  | cons c cs ih =>
      simp only [searchDate]
      cases hhead : dateShapeAt (c :: cs) with
      | some g =>
          simp only [Option.isSome_some, true_iff]
          obtain ⟨d1, d2, m1, m2, y1, y2, y3, y4⟩ := g
          obtain ⟨⟨rest, hr⟩, hd⟩ :=
            dateShapeAt_eq_some (c :: cs) d1 d2 m1 m2 y1 y2 y3 y4 hhead
          exact ⟨[], [d1, d2, '/', m1, m2, '/', y1, y2, y3, y4], rest,
            by simpa using hr,
            d1, d2, m1, m2, y1, y2, y3, y4, rfl, hd.1, hd.2.1, hd.2.2.1,
            hd.2.2.2.1, hd.2.2.2.2.1, hd.2.2.2.2.2.1, hd.2.2.2.2.2.2.1,
            hd.2.2.2.2.2.2.2⟩
      | none =>
          rw [ih]
          constructor
          · rintro ⟨p, w, q, hl, hwin⟩
            exact ⟨c :: p, w, q, by simp [hl], hwin⟩
          · rintro ⟨p, w, q, hl, hwin⟩
            cases p with
            | nil =>
                exfalso
                have hs : (dateShapeAt (c :: cs)).isSome := by
                  rw [show c :: cs = w ++ q by simpa using hl]
                  exact dateShapeAt_of_window w q hwin
                simp [hhead] at hs
            | cons p0 p' =>
                simp only [List.cons_append, List.cons.injEq] at hl
                exact ⟨p', w, q, hl.2, hwin⟩

/-- The groups returned by a successful date search are digits. -/
theorem searchDate_digits (l : List Char) (d1 d2 m1 m2 y1 y2 y3 y4 : Char)
    (h : searchDate l = some (d1, d2, m1, m2, y1, y2, y3, y4)) :
    d1.isDigit ∧ d2.isDigit ∧ m1.isDigit ∧ m2.isDigit ∧
    y1.isDigit ∧ y2.isDigit ∧ y3.isDigit ∧ y4.isDigit := by
  induction l with
  | nil => simp [searchDate] at h
  | cons c cs ih =>
      simp only [searchDate] at h
      cases hhead : dateShapeAt (c :: cs) with
      | some g =>
          rw [hhead] at h
          simp only [Option.some.injEq] at h
          subst h
          exact (dateShapeAt_eq_some (c :: cs) d1 d2 m1 m2 y1 y2 y3 y4 hhead).2
      | none =>
          rw [hhead] at h
          exact ih h

/-! ### Claim C5 -/

/-- **C5** (amended): the enricher's / normalizer's `parse_date_ddmmyyyy`
behaves as the claim says — it returns a `YYYY-MM-DD` result exactly on
inputs containing a `DD/MM/YYYY`-shaped substring (mapping the example
`"04/01/2024"` to `"2024-01-04"`), returns the empty string otherwise, and
never raises (it is a total function) — but the PDF extractor's
`normalize_date` does not: it only converts a date at the **start** of the
stripped input and on failure returns the stripped input unchanged, so it
yields the empty string only for whitespace-only input. -/
theorem C5_date_amended :
    (Enrich.parse_date_ddmmyyyy "04/01/2024".toList = "2024-01-04".toList) ∧
    (∀ s : List Char, ContainsDate s ↔ Enrich.parse_date_ddmmyyyy s ≠ []) ∧
    (∀ s : List Char, Enrich.parse_date_ddmmyyyy s ≠ [] →
        isIsoShape (Enrich.parse_date_ddmmyyyy s) = true) ∧
    (∀ s : List Char,
        NormalizeTsv.parse_date_ddmmyyyy s = Enrich.parse_date_ddmmyyyy s) ∧
    (∀ s : List Char, PdfToTsv.normalize_date s = [] ↔ stripStr s = []) := by
  refine ⟨by decide, fun s => ?_, fun s h => ?_, fun s => rfl, fun s => ?_⟩
  · rw [← searchDate_some_iff]
    unfold Enrich.parse_date_ddmmyyyy
    cases hs : searchDate s with
    | some g =>
        obtain ⟨d1, d2, m1, m2, y1, y2, y3, y4⟩ := g
        simp
    | none => simp
  · unfold Enrich.parse_date_ddmmyyyy at h ⊢
    cases hs : searchDate s with
    | some g =>
        obtain ⟨d1, d2, m1, m2, y1, y2, y3, y4⟩ := g
        have hd := searchDate_digits s d1 d2 m1 m2 y1 y2 y3 y4 hs
        simp only [hs]
        simp [isIsoShape, hd.1, hd.2.1, hd.2.2.1, hd.2.2.2.1, hd.2.2.2.2.1,
          hd.2.2.2.2.2.1, hd.2.2.2.2.2.2.1, hd.2.2.2.2.2.2.2]
    | none => simp [hs] at h
  · unfold PdfToTsv.normalize_date
    cases hs : dateShapeAt (stripStr s) with
    | some g =>
        obtain ⟨d1, d2, m1, m2, y1, y2, y3, y4⟩ := g
        obtain ⟨⟨rest, hr⟩, -⟩ :=
          dateShapeAt_eq_some (stripStr s) d1 d2 m1 m2 y1 y2 y3 y4 hs
        simp only [hs]
        constructor
        · intro h
          simp at h
        · intro h
          rw [h] at hr
          simp at hr
    | none => simp only [hs]

/-- **C5** witness: the amended theorem's ISO-shape conjunct applied to a
concrete input containing an embedded date. -/
theorem C5_date_amended_witness :
    isIsoShape (Enrich.parse_date_ddmmyyyy "x 04/01/2024 y".toList) = true :=
  C5_date_amended.2.2.1 "x 04/01/2024 y".toList (by decide)

/-- **C5** counterexample to the claim as stated: `normalize_date` (one of
the two date-normalization functions the claim covers) returns `"hello"`,
not the empty string, on the unparsable input `"hello"`; and on
`"x 04/01/2024"`, which *contains* a `DD/MM/YYYY` date (just not at the
start), it returns the input unchanged instead of the ISO form. -/
theorem C5_date_counterexample :
    PdfToTsv.normalize_date "hello".toList = "hello".toList ∧
    "hello".toList ≠ ([] : List Char) ∧
    PdfToTsv.normalize_date "x 04/01/2024".toList = "x 04/01/2024".toList := by
  refine ⟨by decide, by decide, by decide⟩

/-! ## Character-level facts about the case maps -/

/-- Helper: a char hit by the lower table is one of the 26 concrete pairs. -/
theorem pyLower_find_cases (c : Char) (p : Char × Char)
    (hf : casePairs.find? (fun p => p.1 == c) = some p) :
    p ∈ casePairs ∧ p.1 = c :=
  ⟨List.mem_of_find?_eq_some hf, by simpa using List.find?_some hf⟩

/-- Helper: a char hit by the upper table is one of the 26 concrete pairs. -/
theorem pyUpper_find_cases (c : Char) (p : Char × Char)
    (hf : casePairs.find? (fun p => p.2 == c) = some p) :
    p ∈ casePairs ∧ p.2 = c :=
  ⟨List.mem_of_find?_eq_some hf, by simpa using List.find?_some hf⟩

theorem pyLower_eq_self (c : Char)
    (hf : casePairs.find? (fun p => p.1 == c) = none) : pyLower c = c := by
  unfold pyLower
  simp [hf]

theorem pyUpper_eq_self (c : Char)
    (hf : casePairs.find? (fun p => p.2 == c) = none) : pyUpper c = c := by
  unfold pyUpper
  simp [hf]

theorem isPySpace_pyLower (c : Char) : isPySpace (pyLower c) = isPySpace c := by
  cases hf : casePairs.find? (fun p => p.1 == c) with
  | none => rw [pyLower_eq_self c hf]
  | some p =>
      obtain ⟨hmem, hpc⟩ := pyLower_find_cases c p hf
      have : pyLower c = p.2 := by unfold pyLower; simp [hf]
      rw [this, ← hpc]
      fin_cases hmem <;> rfl

theorem isAlpha_pyLower (c : Char) : (pyLower c).isAlpha = c.isAlpha := by
  cases hf : casePairs.find? (fun p => p.1 == c) with
  | none => rw [pyLower_eq_self c hf]
  | some p =>
      obtain ⟨hmem, hpc⟩ := pyLower_find_cases c p hf
      have : pyLower c = p.2 := by unfold pyLower; simp [hf]
      rw [this, ← hpc]
      fin_cases hmem <;> rfl

theorem pyLower_eq_comma_iff (c : Char) : pyLower c = ',' ↔ c = ',' := by
  cases hf : casePairs.find? (fun p => p.1 == c) with
  | none => rw [pyLower_eq_self c hf]
  | some p =>
      obtain ⟨hmem, hpc⟩ := pyLower_find_cases c p hf
      have : pyLower c = p.2 := by unfold pyLower; simp [hf]
      rw [this, ← hpc]
      fin_cases hmem <;> simp

theorem pyLower_eq_nl_iff (c : Char) : pyLower c = '\n' ↔ c = '\n' := by
  cases hf : casePairs.find? (fun p => p.1 == c) with
  | none => rw [pyLower_eq_self c hf]
  | some p =>
      obtain ⟨hmem, hpc⟩ := pyLower_find_cases c p hf
      have : pyLower c = p.2 := by unfold pyLower; simp [hf]
      rw [this, ← hpc]
      fin_cases hmem <;> simp

theorem pyLower_pyLower (c : Char) : pyLower (pyLower c) = pyLower c := by
  cases hf : casePairs.find? (fun p => p.1 == c) with
  | none => rw [pyLower_eq_self c hf, pyLower_eq_self c hf]
  | some p =>
      obtain ⟨hmem, hpc⟩ := pyLower_find_cases c p hf
      have : pyLower c = p.2 := by unfold pyLower; simp [hf]
      rw [this]
      fin_cases hmem <;> rfl

theorem pyUpper_pyLower (c : Char) : pyUpper (pyLower c) = pyUpper c := by
  cases hf : casePairs.find? (fun p => p.1 == c) with
  | none => rw [pyLower_eq_self c hf]
  | some p =>
      obtain ⟨hmem, hpc⟩ := pyLower_find_cases c p hf
      have : pyLower c = p.2 := by unfold pyLower; simp [hf]
      rw [this, ← hpc]
      fin_cases hmem <;> rfl

theorem pyUpper_pyUpper (c : Char) : pyUpper (pyUpper c) = pyUpper c := by
  cases hf : casePairs.find? (fun p => p.2 == c) with
  | none => rw [pyUpper_eq_self c hf, pyUpper_eq_self c hf]
  | some p =>
      obtain ⟨hmem, hpc⟩ := pyUpper_find_cases c p hf
      have : pyUpper c = p.1 := by unfold pyUpper; simp [hf]
      rw [this]
      fin_cases hmem <;> rfl

theorem isAlpha_pyUpper (c : Char) : (pyUpper c).isAlpha = c.isAlpha := by
  cases hf : casePairs.find? (fun p => p.2 == c) with
  | none => rw [pyUpper_eq_self c hf]
  | some p =>
      obtain ⟨hmem, hpc⟩ := pyUpper_find_cases c p hf
      have : pyUpper c = p.1 := by unfold pyUpper; simp [hf]
      rw [this, ← hpc]
      fin_cases hmem <;> rfl

theorem pyLower_ascii (c : Char) (h : c.toNat < 128) : (pyLower c).toNat < 128 := by
  cases hf : casePairs.find? (fun p => p.1 == c) with
  | none => rw [pyLower_eq_self c hf]; exact h
  | some p =>
      obtain ⟨hmem, hpc⟩ := pyLower_find_cases c p hf
      have : pyLower c = p.2 := by unfold pyLower; simp [hf]
      rw [this]
      fin_cases hmem <;> decide

/-- Lowering a string twice is lowering it once. -/
theorem pyLowerStr_pyLowerStr (l : List Char) :
    pyLowerStr (pyLowerStr l) = pyLowerStr l := by
  unfold pyLowerStr
  rw [List.map_map]
  exact List.map_congr_left (fun c _ => pyLower_pyLower c)

/-- `strip` commutes with lowering. -/
theorem stripStr_pyLowerStr (l : List Char) :
    stripStr (pyLowerStr l) = pyLowerStr (stripStr l) := by
  unfold stripStr pyLowerStr
  have hdw : ∀ m : List Char,
      (m.map pyLower).dropWhile isPySpace = (m.dropWhile isPySpace).map pyLower := by
    intro m
    induction m with
    | nil => rfl
    | cons c cs ih =>
        by_cases hc : isPySpace c = true
        · simp [List.dropWhile_cons, hc, isPySpace_pyLower, ih]
        · simp only [Bool.not_eq_true] at hc
          simp [List.dropWhile_cons, hc, isPySpace_pyLower]
  rw [hdw, ← List.map_reverse, hdw, ← List.map_reverse]

namespace Enrich

/-! ## Characterization of the `^(.+?),\s*([A-Za-z]{2})$` scanner -/

/-- `matchTailRegion` succeeds exactly on `\s* ++ [letter, letter]`. -/
theorem matchTailRegion_eq_some_iff (l : List Char) : ∀ a b : Char,
    matchTailRegion l = some (a, b) ↔
    ∃ ws, l = ws ++ [a, b] ∧ (∀ c ∈ ws, isPySpace c = true) ∧
      a.isAlpha ∧ b.isAlpha := by
  induction l using matchTailRegion.induct with
  | case1 =>
      intro a b
      simp only [matchTailRegion]
      constructor
      · intro h; exact Option.noConfusion h
      · rintro ⟨ws, hws, -⟩; simp at hws
  | case2 x =>
      intro a b
      simp only [matchTailRegion]
      constructor
      · intro h; exact Option.noConfusion h
      · rintro ⟨ws, hws, -⟩
        have := congrArg List.length hws
        simp at this
  | case3 a0 b0 hab =>
      intro a b
      obtain ⟨ha0, hb0⟩ := Bool.and_eq_true_iff.mp hab
      simp only [matchTailRegion, if_pos hab]
      constructor
      · intro h
        injection h with h
        simp only [Prod.mk.injEq] at h
        obtain ⟨rfl, rfl⟩ := h
        exact ⟨[], rfl, by simp, ha0, hb0⟩
      · rintro ⟨ws, hws, hsp, ha, hb⟩
        have hlen := congrArg List.length hws
        simp only [List.length_cons, List.length_nil, List.length_append] at hlen
        have hws0 : ws = [] := by
          cases ws with
          | nil => rfl
          | cons w ws' => simp at hlen
        subst hws0
        simp only [List.nil_append, List.cons.injEq, and_true] at hws
        obtain ⟨rfl, rfl⟩ := hws
        rfl
  | case4 a0 b0 hab =>
      intro a b
      simp only [matchTailRegion, if_neg hab]
      constructor
      · intro h; exact Option.noConfusion h
      · rintro ⟨ws, hws, hsp, ha, hb⟩
        have hlen := congrArg List.length hws
        simp only [List.length_cons, List.length_nil, List.length_append] at hlen
        have hws0 : ws = [] := by
          cases ws with
          | nil => rfl
          | cons w ws' => simp at hlen
        subst hws0
        simp only [List.nil_append, List.cons.injEq, and_true] at hws
        obtain ⟨rfl, rfl⟩ := hws
        exact absurd (by simp [ha, hb] : (a0.isAlpha && b0.isAlpha) = true) hab
  | case5 c c2 c3 cs hc ih =>
      intro a b
      simp only [matchTailRegion, if_pos hc]
      rw [ih a b]
      constructor
      · rintro ⟨ws, hws, hsp, ha, hb⟩
        refine ⟨c :: ws, by simp [hws], ?_, ha, hb⟩
        intro x hx
        rcases List.mem_cons.mp hx with rfl | hx
        · exact hc
        · exact hsp x hx
      · rintro ⟨ws, hws, hsp, ha, hb⟩
        cases ws with
        | nil =>
            have := congrArg List.length hws
            simp at this
        | cons w ws' =>
            simp only [List.cons_append, List.cons.injEq] at hws
            obtain ⟨rfl, hws⟩ := hws
            exact ⟨ws', hws, fun x hx => hsp x (by simp [hx]), ha, hb⟩
  | case6 c c2 c3 cs hc =>
      intro a b
      simp only [matchTailRegion, if_neg hc]
      constructor
      · intro h; exact Option.noConfusion h
      · rintro ⟨ws, hws, hsp, ha, hb⟩
        cases ws with
        | nil =>
            have := congrArg List.length hws
            simp at this
        | cons w ws' =>
            simp only [List.cons_append, List.cons.injEq] at hws
            obtain ⟨rfl, -⟩ := hws
            exact absurd (hsp c (by simp)) hc

/-- Soundness of the `goCR` scan: a successful match exhibits the regex
decomposition. -/
theorem goCR_sound (t : List Char) : ∀ pre g a b, goCR pre t = some (g, a, b) →
    ∃ g₂ ws, t = g₂ ++ ',' :: ws ++ [a, b] ∧ g = pre.reverse ++ g₂ ∧
      g ≠ [] ∧ '\n' ∉ g ∧ (∀ c ∈ ws, isPySpace c = true) ∧
      a.isAlpha ∧ b.isAlpha := by
  induction t with
  | nil => intro pre g a b h; simp [goCR] at h
  | cons c cs ih =>
      intro pre g a b h
      unfold goCR at h
      by_cases hcond : (c == ',' && !pre.isEmpty && !pre.contains '\n') = true
      · rw [if_pos hcond] at h
        simp only [Bool.and_eq_true, beq_iff_eq, Bool.not_eq_true'] at hcond
        obtain ⟨⟨rfl, hpre⟩, hnl⟩ := hcond
        cases hm : matchTailRegion cs with
        | some p =>
            obtain ⟨a', b'⟩ := p
            rw [hm] at h
            injection h with h
            simp only [Prod.mk.injEq] at h
            obtain ⟨hg, ha1, hb1⟩ := h
            subst ha1
            subst hb1
            subst hg
            obtain ⟨ws, hws, hsp, ha, hb⟩ :=
              (matchTailRegion_eq_some_iff cs _ _).mp hm
            refine ⟨[], ws, by simp [hws], by simp, ?_, ?_, hsp, ha, hb⟩
            · simp only [List.append_nil, ne_eq, List.reverse_eq_nil_iff]
              simpa using hpre
            · simp only [List.append_nil, List.mem_reverse]
              simpa using hnl
        | none =>
            rw [hm] at h
            obtain ⟨g₂', ws, hcs, hg, hne, hnlg, hsp, ha, hb⟩ := ih (',' :: pre) g a b h
            refine ⟨',' :: g₂', ws, by simp [hcs], ?_, hne, hnlg, hsp, ha, hb⟩
            rw [hg]
            simp
      · rw [if_neg hcond] at h
        obtain ⟨g₂', ws, hcs, hg, hne, hnlg, hsp, ha, hb⟩ := ih (c :: pre) g a b h
        refine ⟨c :: g₂', ws, by simp [hcs], ?_, hne, hnlg, hsp, ha, hb⟩
        rw [hg]
        simp

/-- Completeness of the `goCR` scan: a valid regex decomposition guarantees
a match. -/
theorem goCR_complete (t : List Char) : ∀ pre g₂ ws (a b : Char),
    t = g₂ ++ ',' :: ws ++ [a, b] → pre.reverse ++ g₂ ≠ [] →
    '\n' ∉ pre.reverse ++ g₂ → (∀ c ∈ ws, isPySpace c = true) →
    a.isAlpha = true → b.isAlpha = true → (goCR pre t).isSome := by
  induction t with
  | nil =>
      intro pre g₂ ws a b ht
      exfalso
      have := congrArg List.length ht
      simp at this
      omega
  | cons c cs ih =>
      intro pre g₂ ws a b ht hne hnl hsp ha hb
      cases g₂ with
      | nil =>
          simp only [List.nil_append, List.cons.injEq] at ht
          obtain ⟨rfl, rfl⟩ := ht
          unfold goCR
          have hpre : pre ≠ [] := by
            intro h
            subst h
            simp at hne
          have hcond : (',' == ',' && !pre.isEmpty && !pre.contains '\n') = true := by
            simp only [List.append_nil, List.mem_reverse] at hnl
            simp only [Bool.and_eq_true, beq_self_eq_true, true_and,
              Bool.not_eq_true']
            constructor
            · simpa using hpre
            · simpa using hnl
          rw [if_pos hcond]
          simp only [List.append_eq]
          rw [(matchTailRegion_eq_some_iff (ws ++ [a, b]) a b).mpr
            ⟨ws, rfl, hsp, ha, hb⟩]
          simp
      | cons c₂ g₂' =>
          simp only [List.cons_append, List.cons.injEq] at ht
          obtain ⟨rfl, hcs⟩ := ht
          have hrec : (goCR (c :: pre) cs).isSome := by
            refine ih (c :: pre) g₂' ws a b hcs (by simp) ?_ hsp ha hb
            simp only [List.reverse_cons, List.append_assoc] at hnl ⊢
            simpa using hnl
          unfold goCR
          by_cases hcond : (c == ',' && !pre.isEmpty && !pre.contains '\n') = true
          · rw [if_pos hcond]
            cases hm : matchTailRegion cs with
            | some p =>
                obtain ⟨pa, pb⟩ := p
                simp
            | none => exact hrec
          · rw [if_neg hcond]
            exact hrec

/-- Splitting a list at a comma whose tail is comma-free is unambiguous. -/
theorem comma_split_unique (g₁ r₁ : List Char) : ∀ g₂ r₂,
    g₁ ++ ',' :: r₁ = g₂ ++ ',' :: r₂ → ',' ∉ r₁ → ',' ∉ r₂ →
    g₁ = g₂ ∧ r₁ = r₂ := by
  induction g₁ with
  | nil =>
      intro g₂ r₂ h h1 h2
      cases g₂ with
      | nil => simpa using h
      | cons x g₂' =>
          simp only [List.nil_append, List.cons_append, List.cons.injEq] at h
          obtain ⟨rfl, h⟩ := h
          exact absurd (h ▸ List.mem_append_right g₂' (by simp)) h1
  | cons x g₁' ih =>
      intro g₂ r₂ h h1 h2
      cases g₂ with
      | nil =>
          simp only [List.nil_append, List.cons_append, List.cons.injEq] at h
          obtain ⟨rfl, h⟩ := h
          exact absurd (h.symm ▸ List.mem_append_right g₁' (by simp)) h2
      | cons y g₂' =>
          simp only [List.cons_append, List.cons.injEq] at h
          obtain ⟨rfl, h⟩ := h
          obtain ⟨hg, hr⟩ := ih g₂' r₂ h h1 h2
          exact ⟨by rw [hg], hr⟩

/-- Full characterization of
`re.match(r"^(.+?),\s*([A-Za-z]{2})$", t)`: it returns groups `(g, a, b)`
exactly when `t` splits as `g ++ "," ++ whitespace ++ [a, b]` with `g`
non-empty and newline-free and `a`, `b` letters (such a split is unique,
because the tail can contain no comma). -/
theorem matchCityRegion_eq_some_iff (t g : List Char) (a b : Char) :
    matchCityRegion t = some (g, a, b) ↔
    (∃ ws, t = g ++ ',' :: ws ++ [a, b] ∧ (∀ c ∈ ws, isPySpace c = true)) ∧
    g ≠ [] ∧ '\n' ∉ g ∧ a.isAlpha ∧ b.isAlpha := by
  constructor
  · intro h
    obtain ⟨g₂, ws, ht, hg, hne, hnl, hsp, ha, hb⟩ := goCR_sound t [] g a b h
    simp only [List.reverse_nil, List.nil_append] at hg
    subst hg
    exact ⟨⟨ws, ht, hsp⟩, hne, hnl, ha, hb⟩
  · rintro ⟨⟨ws, ht, hsp⟩, hne, hnl, ha, hb⟩
    have hs : (goCR [] t).isSome :=
      goCR_complete t [] g ws a b ht (by simpa using hne) (by simpa using hnl)
        hsp ha hb
    rw [Option.isSome_iff_exists] at hs
    obtain ⟨⟨g', a', b'⟩, hm⟩ := hs
    obtain ⟨g₂', ws', ht', hg', hne', hnl', hsp', ha', hb'⟩ :=
      goCR_sound t [] g' a' b' hm
    simp only [List.reverse_nil, List.nil_append] at hg'
    subst hg'
    have hnc1 : ',' ∉ ws ++ [a, b] := by
      intro hc
      rcases List.mem_append.mp hc with hc | hc
      · exact absurd (hsp ',' hc) (by decide)
      · have hab : (',' : Char) = a ∨ (',' : Char) = b := by simpa using hc
        rcases hab with hh | hh
        · rw [← hh] at ha; exact absurd ha (by decide)
        · rw [← hh] at hb; exact absurd hb (by decide)
    have hnc2 : ',' ∉ ws' ++ [a', b'] := by
      intro hc
      rcases List.mem_append.mp hc with hc | hc
      · exact absurd ( hsp' ',' hc) (by decide)
      · have hab : (',' : Char) = a' ∨ (',' : Char) = b' := by simpa using hc
        rcases hab with hh | hh
        · rw [← hh] at ha'; exact absurd ha' (by decide)
        · rw [← hh] at hb'; exact absurd hb' (by decide)
    have heq : g ++ ',' :: (ws ++ [a, b]) = g' ++ ',' :: (ws' ++ [a', b']) := by
      have h1 : g ++ ',' :: (ws ++ [a, b]) = t := by rw [ht]; simp
      have h2 : g' ++ ',' :: (ws' ++ [a', b']) = t := by rw [ht']; simp
      rw [h1, h2]
    obtain ⟨hgg, hrr⟩ := comma_split_unique g (ws ++ [a, b]) g' (ws' ++ [a', b'])
      heq hnc1 hnc2
    have hlen : ws.length = ws'.length := by
      have := congrArg List.length hrr
      simp at this
      omega
    obtain ⟨hww, hab⟩ := List.append_inj hrr hlen
    simp only [List.cons.injEq, and_true] at hab
    obtain ⟨rfl, rfl⟩ := hab
    unfold matchCityRegion
    rw [hm, hgg]

end Enrich

/-! ### Claim C6 -/

/-- **C6**: for every input location string of the shape `"CITY,PQ"` (after
`unidecode` transliteration of the stripped raw string; the city part
non-empty and not spanning a newline), `normalize_loc` rewrites the legacy
region code `PQ` to `QC` before the country lookup and key construction:
the output region is `"QC"`, the country is `"Canada"`, and the normalized
key is `"<city>,qc,canada"` lowercased — `pq` appears nowhere in it. -/
theorem C6_pq_to_qc (raw : String) (city : List Char)
    (h : foldStr (stripStr raw.toList) = city ++ [',', 'P', 'Q'])
    (hc1 : city ≠ []) (hc2 : '\n' ∉ city) :
    (Enrich.normalize_loc raw).region = ['Q', 'C'] ∧
    (Enrich.normalize_loc raw).country = "Canada".toList ∧
    (Enrich.normalize_loc raw).norm
      = pyLowerStr (stripStr city) ++ ",qc,canada".toList := by
  have hts : ¬((stripStr raw.toList).isEmpty = true) := by
    intro he
    rw [List.isEmpty_iff] at he
    rw [he] at h
    have := congrArg List.length h
    simp [foldStr] at this
  have hmatch : Enrich.matchCityRegion (city ++ [',', 'P', 'Q'])
      = some (city, 'P', 'Q') :=
    (Enrich.matchCityRegion_eq_some_iff _ _ _ _).mpr
      ⟨⟨[], by simp, by simp⟩, hc1, hc2, by decide, by decide⟩
  unfold Enrich.normalize_loc Enrich.normalize_locL
  rw [if_neg hts, h]
  simp only [hmatch]
  refine ⟨rfl, rfl, ?_⟩
  show pyLowerStr (stripStr city ++ ',' :: ['Q', 'C'] ++ ',' :: "Canada".toList)
      = pyLowerStr (stripStr city) ++ ",qc,canada".toList
  unfold pyLowerStr
  rw [List.map_append, List.map_append, List.append_assoc]
  congr 1

/-- **C6** witness: the theorem applied to `"BOUCHERVILLE,PQ"`. -/
theorem C6_pq_to_qc_witness :
    (Enrich.normalize_loc "BOUCHERVILLE,PQ").region = ['Q', 'C'] ∧
    (Enrich.normalize_loc "BOUCHERVILLE,PQ").country = "Canada".toList ∧
    (Enrich.normalize_loc "BOUCHERVILLE,PQ").norm
      = pyLowerStr (stripStr "BOUCHERVILLE".toList) ++ ",qc,canada".toList :=
  C6_pq_to_qc "BOUCHERVILLE,PQ" "BOUCHERVILLE".toList (by decide) (by decide)
    (by decide)

/-! ## Facts about `strip` and the `unidecode` model -/

/-- The head surviving `dropWhile` fails the predicate. -/
theorem dropWhile_head_false (p : Char → Bool) (l : List Char) (c : Char)
    (h : (l.dropWhile p).head? = some c) : p c = false := by
  induction l with
  | nil => simp at h
  | cons x xs ih =>
      rw [List.dropWhile_cons] at h
      split at h
      · exact ih h
      · rename_i hx
        simp only [List.head?_cons, Option.some.injEq] at h
        subst h
        simpa using hx

/-- `dropWhile` keeps the last element of a list (when anything is kept). -/
theorem dropWhile_getLast? (p : Char → Bool) (l : List Char)
    (h : l.dropWhile p ≠ []) : (l.dropWhile p).getLast? = l.getLast? := by
  induction l with
  | nil => simp at h
  | cons x xs ih =>
      rw [List.dropWhile_cons]
      rw [List.dropWhile_cons] at h
      split
      · rename_i hx
        rw [if_pos hx] at h
        have hxs : xs ≠ [] := by
          intro he
          rw [he] at h
          simp at h
        rw [ih h]
        cases xs with
        | nil => exact absurd rfl hxs
        | cons y ys => simp [List.getLast?_cons_cons]
      · rfl

/-- The head of a stripped string is not whitespace. -/
theorem stripStr_head (l : List Char) (c : Char)
    (h : (stripStr l).head? = some c) : isPySpace c = false := by
  unfold stripStr at h
  rw [List.head?_reverse] at h
  have hne : (l.dropWhile isPySpace).reverse.dropWhile isPySpace ≠ [] := by
    intro he
    rw [he] at h
    simp at h
  rw [dropWhile_getLast? _ _ hne, List.getLast?_reverse] at h
  exact dropWhile_head_false _ _ _ h

/-- The last character of a stripped string is not whitespace. -/
theorem stripStr_last (l : List Char) (c : Char)
    (h : (stripStr l).getLast? = some c) : isPySpace c = false := by
  unfold stripStr at h
  rw [List.getLast?_reverse] at h
  exact dropWhile_head_false _ _ _ h

/-- A string whose ends are not whitespace is a `strip` fixpoint. -/
theorem stripStr_eq_self (m : List Char)
    (h1 : ∀ c, m.head? = some c → isPySpace c = false)
    (h2 : ∀ c, m.getLast? = some c → isPySpace c = false) :
    stripStr m = m := by
  unfold stripStr
  have hd : m.dropWhile isPySpace = m := by
    cases m with
    | nil => rfl
    | cons c cs =>
        rw [List.dropWhile_cons, if_neg (by simp [h1 c rfl])]
  rw [hd]
  have hr : m.reverse.dropWhile isPySpace = m.reverse := by
    cases hm : m.reverse with
    | nil => simp
    | cons c cs =>
        rw [List.dropWhile_cons, if_neg ?_]
        have : m.reverse.head? = some c := by rw [hm]; rfl
        rw [List.head?_reverse] at this
        simp [h2 c this]
  rw [hr, List.reverse_reverse]

/-- Stripping is idempotent. -/
theorem stripStr_stripStr (l : List Char) :
    stripStr (stripStr l) = stripStr l :=
  stripStr_eq_self (stripStr l) (stripStr_head l) (stripStr_last l)

/-- Stripping keeps only characters of the original string. -/
theorem mem_stripStr (l : List Char) (c : Char) (h : c ∈ stripStr l) :
    c ∈ l := by
  unfold stripStr at h
  rw [List.mem_reverse] at h
  have h1 := (List.dropWhile_sublist (l := (l.dropWhile isPySpace).reverse)
    (p := isPySpace)).mem h
  rw [List.mem_reverse] at h1
  exact (List.dropWhile_sublist (l := l) (p := isPySpace)).mem h1

/-- `unidecode` is the identity on ASCII characters. -/
theorem asciiFold_ascii_self (c : Char) (h : c.toNat < 128) :
    asciiFold c = [c] := by
  unfold asciiFold
  rw [if_pos h]

/-- Every character `unidecode` outputs is ASCII. -/
theorem asciiFold_out_ascii (c c' : Char) (h : c' ∈ asciiFold c) :
    c'.toNat < 128 := by
  unfold asciiFold at h
  split at h
  · rename_i hc
    rw [List.mem_singleton] at h
    subst h
    exact hc
  · rename_i hc
    cases hf : accentTable.find? (fun p => p.1 == c) with
    | none => rw [hf] at h; simp at h
    | some p =>
        rw [hf] at h
        have hmem := List.mem_of_find?_eq_some hf
        fin_cases hmem <;> simp_all

/-- `unidecode` maps non-whitespace characters to non-whitespace output. -/
theorem asciiFold_out_nonspace (c c' : Char) (hc : isPySpace c = false)
    (h : c' ∈ asciiFold c) : isPySpace c' = false := by
  unfold asciiFold at h
  split at h
  · rw [List.mem_singleton] at h
    subst h
    exact hc
  · cases hf : accentTable.find? (fun p => p.1 == c) with
    | none => rw [hf] at h; simp at h
    | some p =>
        rw [hf] at h
        have hmem := List.mem_of_find?_eq_some hf
        fin_cases hmem <;> simp_all <;> decide

theorem foldStr_nil : foldStr [] = [] := rfl

theorem foldStr_cons (c : Char) (l : List Char) :
    foldStr (c :: l) = asciiFold c ++ foldStr l := by
  simp [foldStr]

theorem foldStr_append (l₁ l₂ : List Char) :
    foldStr (l₁ ++ l₂) = foldStr l₁ ++ foldStr l₂ := by
  simp [foldStr]

/-- `unidecode` is the identity on ASCII strings. -/
theorem foldStr_eq_self (l : List Char) (h : ∀ c ∈ l, c.toNat < 128) :
    foldStr l = l := by
  induction l with
  | nil => rfl
  | cons c cs ih =>
      rw [foldStr_cons, asciiFold_ascii_self c (h c (by simp)),
        ih (fun x hx => h x (by simp [hx]))]
      rfl

/-- Every character of a transliterated string is ASCII. -/
theorem foldStr_ascii (l : List Char) (c' : Char) (h : c' ∈ foldStr l) :
    c'.toNat < 128 := by
  unfold foldStr at h
  rw [List.mem_flatten] at h
  obtain ⟨a, ha, hc⟩ := h
  rw [List.mem_map] at ha
  obtain ⟨c, -, rfl⟩ := ha
  exact asciiFold_out_ascii c c' hc

theorem pyLower_ascii_out (c : Char) (h : c.toNat < 128) :
    (pyLower c).toNat < 128 := pyLower_ascii c h

theorem pyUpper_ascii_out (c : Char) (h : c.toNat < 128) :
    (pyUpper c).toNat < 128 := by
  cases hf : casePairs.find? (fun p => p.2 == c) with
  | none => rw [pyUpper_eq_self c hf]; exact h
  | some p =>
      obtain ⟨hmem, hpc⟩ := pyUpper_find_cases c p hf
      have : pyUpper c = p.1 := by unfold pyUpper; simp [hf]
      rw [this]
      fin_cases hmem <;> decide

namespace Enrich

/-! ## The location key depends only on the lowercased transliterated text -/

/-- The `^(.+?),\s*([A-Za-z]{2})$` match commutes with lowercasing. -/
theorem matchCityRegion_lower (t : List Char) :
    matchCityRegion (pyLowerStr t)
      = (matchCityRegion t).map
          (fun r => (pyLowerStr r.1, pyLower r.2.1, pyLower r.2.2)) := by
  cases hm : matchCityRegion t with
  | some r =>
      obtain ⟨g, a, b⟩ := r
      obtain ⟨⟨ws, ht, hsp⟩, hne, hnl, ha, hb⟩ :=
        (matchCityRegion_eq_some_iff t g a b).mp hm
      show matchCityRegion (pyLowerStr t)
        = some (pyLowerStr g, pyLower a, pyLower b)
      apply (matchCityRegion_eq_some_iff (pyLowerStr t) (pyLowerStr g)
        (pyLower a) (pyLower b)).mpr
      refine ⟨⟨pyLowerStr ws, ?_, ?_⟩, ?_, ?_, ?_, ?_⟩
      · rw [ht]
        unfold pyLowerStr
        simp only [List.map_append, List.map_cons, List.map_nil]
        rw [show pyLower ',' = ',' from rfl]
      · intro c hc
        simp only [pyLowerStr, List.mem_map] at hc
        obtain ⟨c0, hc0, rfl⟩ := hc
        rw [isPySpace_pyLower]
        exact hsp c0 hc0
      · simpa [pyLowerStr] using hne
      · intro hmem
        simp only [pyLowerStr, List.mem_map] at hmem
        obtain ⟨c0, hc0, hc0e⟩ := hmem
        rw [pyLower_eq_nl_iff] at hc0e
        exact hnl (hc0e ▸ hc0)
      · rw [isAlpha_pyLower]; exact ha
      · rw [isAlpha_pyLower]; exact hb
  | none =>
      show matchCityRegion (pyLowerStr t) = none
      cases hm' : matchCityRegion (pyLowerStr t) with
      | none => rfl
      | some r' =>
          exfalso
          obtain ⟨g', a', b'⟩ := r'
          obtain ⟨⟨ws', ht', hsp'⟩, hne', hnl', ha', hb'⟩ :=
            (matchCityRegion_eq_some_iff (pyLowerStr t) g' a' b').mp hm'
          obtain ⟨t₁, t₂, rfl, hm1, hm2⟩ := List.append_eq_map_iff.mp ht'.symm
          obtain ⟨ca, t₂', rfl, hca, hm2'⟩ := List.map_eq_cons_iff.mp hm2
          obtain ⟨cb, t₂'', rfl, hcb, hm2''⟩ := List.map_eq_cons_iff.mp hm2'
          have ht2 : t₂'' = [] := by
            have := congrArg List.length hm2''
            simpa using this
          subst ht2
          obtain ⟨ta, tb, rfl, hma, hmb⟩ := List.append_eq_map_iff.mp hm1.symm
          obtain ⟨c₀, t₄, rfl, hc₀, hm4⟩ := List.map_eq_cons_iff.mp hmb
          rw [pyLower_eq_comma_iff] at hc₀
          subst hc₀
          have hsome : (goCR [] (ta ++ ',' :: t₄ ++ [ca, cb])).isSome := by
            apply goCR_complete _ [] ta t₄ ca cb rfl
            · simp only [List.reverse_nil, List.nil_append]
              intro h0
              apply hne'
              rw [← hma, h0]
              rfl
            · simp only [List.reverse_nil, List.nil_append]
              intro hmem
              apply hnl'
              rw [← hma]
              have hln : pyLower '\n' = '\n' := rfl
              rw [← hln]
              exact List.mem_map_of_mem pyLower hmem
            · intro c hc
              rw [← isPySpace_pyLower c]
              exact hsp' (pyLower c) (hm4 ▸ List.mem_map_of_mem _ hc)
            · rw [← isAlpha_pyLower ca, hca]; exact ha'
            · rw [← isAlpha_pyLower cb, hcb]; exact hb'
          unfold matchCityRegion at hm
          rw [hm] at hsome
          simp at hsome

/-- The key computed by `normalize_locL` is `normKeyCore` of the
transliterated stripped input. -/
theorem normalize_locL_norm (raw : List Char) :
    (normalize_locL raw).norm = normKeyCore (foldStr (stripStr raw)) := by
  unfold normalize_locL normKeyCore
  by_cases hs : (stripStr raw).isEmpty = true
  · rw [if_pos hs]
    rw [List.isEmpty_iff] at hs
    rw [hs]
    rfl
  · rw [if_neg hs]
    cases hm : matchCityRegion (foldStr (stripStr raw)) with
    | none => simp only [hm]
    | some r =>
        obtain ⟨g1, a, b⟩ := r
        simp only [hm]

/-- The key construction is invariant under lowercasing its input. -/
theorem normKeyCore_lower (t : List Char) :
    normKeyCore (pyLowerStr t) = normKeyCore t := by
  unfold normKeyCore
  rw [matchCityRegion_lower t]
  cases hm : matchCityRegion t with
  | none => simp only [Option.map, pyLowerStr_pyLowerStr]
  | some r =>
      obtain ⟨g1, a, b⟩ := r
      simp only [Option.map]
      rw [pyUpper_pyLower a, pyUpper_pyLower b]
      rw [stripStr_pyLowerStr g1]
      set code0 := [pyUpper a, pyUpper b] with hcode0
      set code := if code0 = ['P', 'Q'] then ['Q', 'C'] else code0 with hcode
      by_cases hc : (provLookup code).isEmpty = true
      · rw [if_pos hc, if_pos hc]
        unfold pyLowerStr
        simp only [List.map_append, List.map_map, List.map_cons]
        rw [show List.map (pyLower ∘ pyLower) (stripStr g1)
            = List.map pyLower (stripStr g1) from
          List.map_congr_left (fun c _ => pyLower_pyLower c)]
      · rw [if_neg hc, if_neg hc]
        unfold pyLowerStr
        simp only [List.map_append, List.map_map, List.map_cons]
        rw [show List.map (pyLower ∘ pyLower) (stripStr g1)
            = List.map pyLower (stripStr g1) from
          List.map_congr_left (fun c _ => pyLower_pyLower c)]

end Enrich

/-- A letter is not whitespace. -/
theorem isAlpha_not_space (c : Char) (h : c.isAlpha = true) :
    isPySpace c = false := by
  by_contra hc
  rw [Bool.not_eq_false] at hc
  unfold isPySpace at hc
  simp only [Bool.or_eq_true, beq_iff_eq] at hc
  rcases hc with ((((rfl | rfl) | rfl) | rfl) | rfl) | rfl <;> simp at h

namespace Enrich

/-- The country table yields the empty string, `"Canada"` or `"USA"`. -/
theorem provLookup_cases (code : List Char) :
    provLookup code = [] ∨ provLookup code = "Canada".toList ∨
    provLookup code = "USA".toList := by
  unfold provLookup
  cases hf : PROV_STATE_TO_COUNTRY.find? (fun p => p.1.toList == code) with
  | none => left; rfl
  | some p =>
      have hmem := List.mem_of_find?_eq_some hf
      fin_cases hmem <;> simp

end Enrich

/-- `strip ∘ unidecode` is the identity on stripped strings whose every
character transliterates to at least one output character. -/
theorem stripStr_foldStr (m : List Char) (hm : stripStr m = m)
    (H : ∀ c ∈ m, asciiFold c ≠ []) :
    stripStr (foldStr m) = foldStr m := by
  cases m with
  | nil => rfl
  | cons c₀ rest =>
      apply stripStr_eq_self
      · intro c' hc'
        rw [foldStr_cons] at hc'
        have hne : asciiFold c₀ ≠ [] := H c₀ (by simp)
        rw [List.head?_append_of_ne_nil _ hne] at hc'
        have hc₀ : isPySpace c₀ = false := by
          have : (stripStr (c₀ :: rest)).head? = some c₀ := by rw [hm]; rfl
          exact stripStr_head _ _ this
        exact asciiFold_out_nonspace c₀ c' hc₀
          (by
            cases hfa : asciiFold c₀ with
            | nil => exact absurd hfa hne
            | cons y ys =>
                rw [hfa] at hc'
                simp only [List.head?_cons, Option.some.injEq] at hc'
                subst hc'
                simp [hfa])
      · intro c' hc'
        have hne0 : (c₀ :: rest) ≠ ([] : List Char) := by simp
        obtain ⟨clast, hlast⟩ : ∃ cl, (c₀ :: rest).getLast? = some cl :=
          ⟨(c₀ :: rest).getLast hne0, List.getLast?_eq_getLast _ hne0⟩
        have hdec : (c₀ :: rest).dropLast ++ [clast] = c₀ :: rest := by
          rw [show clast = (c₀ :: rest).getLast hne0 from by
            rw [List.getLast?_eq_getLast _ hne0] at hlast
            exact (Option.some.injEq _ _ ▸ hlast.symm : _)]
          exact List.dropLast_append_getLast hne0
        have hclast : isPySpace clast = false := by
          apply stripStr_last (c₀ :: rest)
          rw [hm]
          exact hlast
        have hnec : asciiFold clast ≠ [] :=
          H clast (by rw [← hdec]; exact List.mem_append_right _ (by simp))
        rw [← hdec, foldStr_append] at hc'
        rw [List.getLast?_append_of_ne_nil _ ?hne2] at hc'
        case hne2 =>
          rw [show foldStr [clast] = asciiFold clast from by
            rw [foldStr_cons, foldStr_nil, List.append_nil]]
          exact hnec
        rw [show foldStr [clast] = asciiFold clast from by
          rw [foldStr_cons, foldStr_nil, List.append_nil]] at hc'
        apply asciiFold_out_nonspace clast c' hclast
        cases hfa : asciiFold clast with
        | nil => exact absurd hfa hnec
        | cons y ys =>
            rw [hfa] at hc'
            have hmem : c' ∈ y :: ys := by
              have hgl := List.getLast?_eq_getLast (y :: ys) (by simp)
              rw [hgl] at hc'
              simp only [Option.some.injEq] at hc'
              rw [← hc']
              exact List.getLast_mem _
            exact hmem

namespace Enrich

/-- The region code constructed by `normalize_locL` is a pair of uppercase
letters (fixed by `pyUpper`), and — because `PQ` has just been rewritten to
`QC` — it is never `PQ` itself. -/
theorem code_facts (a b : Char) (ha : a.isAlpha = true) (hb : b.isAlpha = true)
    (ha128 : a.toNat < 128) (hb128 : b.toNat < 128) :
    ∃ cd1 cd2,
      (if [pyUpper a, pyUpper b] = ['P', 'Q'] then ['Q', 'C']
        else [pyUpper a, pyUpper b]) = [cd1, cd2] ∧
      cd1.isAlpha = true ∧ cd2.isAlpha = true ∧
      pyUpper cd1 = cd1 ∧ pyUpper cd2 = cd2 ∧
      cd1.toNat < 128 ∧ cd2.toNat < 128 ∧
      (if [pyUpper a, pyUpper b] = ['P', 'Q'] then ['Q', 'C']
        else [pyUpper a, pyUpper b]) ≠ ['P', 'Q'] := by
  by_cases hpq : [pyUpper a, pyUpper b] = ['P', 'Q']
  · refine ⟨'Q', 'C', by rw [if_pos hpq], by decide, by decide, by decide,
      by decide, by decide, by decide, ?_⟩
    rw [if_pos hpq]
    decide
  · refine ⟨pyUpper a, pyUpper b, by rw [if_neg hpq], ?_, ?_, ?_, ?_, ?_, ?_, ?_⟩
    · rw [isAlpha_pyUpper]; exact ha
    · rw [isAlpha_pyUpper]; exact hb
    · exact pyUpper_pyUpper a
    · exact pyUpper_pyUpper b
    · exact pyUpper_ascii_out a ha128
    · exact pyUpper_ascii_out b hb128
    · rw [if_neg hpq]; exact hpq

/-- The key built from a city and a two-letter code with no known country is
a strip-fixed ASCII string on which the key construction is a fixpoint. -/
theorem normKey_nocountry_branch (city : List Char) (cd1 cd2 : Char)
    (hcity_strip : stripStr city = city)
    (hcity_head : ∀ c, city.head? = some c → isPySpace c = false)
    (hcity_nl : '\n' ∉ city)
    (hcity_ascii : ∀ c ∈ city, c.toNat < 128)
    (hcd1a : cd1.isAlpha = true) (hcd2a : cd2.isAlpha = true)
    (hcd1u : pyUpper cd1 = cd1) (hcd2u : pyUpper cd2 = cd2)
    (hcd1s : cd1.toNat < 128) (hcd2s : cd2.toNat < 128)
    (hcpq : ([cd1, cd2] : List Char) ≠ ['P', 'Q'])
    (hcl : provLookup [cd1, cd2] = []) :
    stripStr (pyLowerStr (city ++ ',' :: [cd1, cd2]))
      = pyLowerStr (city ++ ',' :: [cd1, cd2]) ∧
    (∀ c ∈ pyLowerStr (city ++ ',' :: [cd1, cd2]), c.toNat < 128) ∧
    normKeyCore (pyLowerStr (city ++ ',' :: [cd1, cd2]))
      = pyLowerStr (city ++ ',' :: [cd1, cd2]) := by
  have hz_head : ∀ c, (city ++ ',' :: [cd1, cd2]).head? = some c →
      isPySpace c = false := by
    intro c hc
    cases city with
    | nil =>
        simp only [List.nil_append, List.head?_cons, Option.some.injEq] at hc
        subst hc
        decide
    | cons x xs =>
        simp only [List.cons_append, List.head?_cons, Option.some.injEq] at hc
        subst hc
        exact hcity_head x rfl
  have hz_last : ∀ c, (city ++ ',' :: [cd1, cd2]).getLast? = some c →
      isPySpace c = false := by
    intro c hc
    rw [List.getLast?_append_of_ne_nil _ (by simp)] at hc
    have hgl : (',' :: [cd1, cd2] : List Char).getLast? = some cd2 := rfl
    rw [hgl] at hc
    injection hc with hc
    subst hc
    exact isAlpha_not_space cd2 hcd2a
  have hz_strip : stripStr (city ++ ',' :: [cd1, cd2]) = city ++ ',' :: [cd1, cd2] :=
    stripStr_eq_self _ hz_head hz_last
  have hz_ascii : ∀ c ∈ city ++ ',' :: [cd1, cd2], c.toNat < 128 := by
    intro c hc
    rcases List.mem_append.mp hc with hc | hc
    · exact hcity_ascii c hc
    · simp only [List.mem_cons, List.not_mem_nil, or_false] at hc
      rcases hc with rfl | rfl | rfl
      · decide
      · exact hcd1s
      · exact hcd2s
  refine ⟨?_, ?_, ?_⟩
  · rw [stripStr_pyLowerStr, hz_strip]
  · intro c hc
    simp only [pyLowerStr, List.mem_map] at hc
    obtain ⟨c0, hc0, rfl⟩ := hc
    exact pyLower_ascii c0 (hz_ascii c0 hc0)
  · cases city with
    | nil =>
        have hform : pyLowerStr (([] : List Char) ++ ',' :: [cd1, cd2])
            = [',', pyLower cd1, pyLower cd2] := by
          simp only [List.nil_append, pyLowerStr, List.map_cons, List.map_nil]
          rw [show pyLower ',' = ',' from by decide]
        rw [hform]
        have hnone : matchCityRegion [',', pyLower cd1, pyLower cd2] = none := by
          cases hm2 : matchCityRegion [',', pyLower cd1, pyLower cd2] with
          | none => rfl
          | some r2 =>
              exfalso
              obtain ⟨g2, a2, b2⟩ := r2
              obtain ⟨⟨ws2, hd2, -⟩, hne2, -, -, -⟩ :=
                (matchCityRegion_eq_some_iff _ g2 a2 b2).mp hm2
              have hlen := congrArg List.length hd2
              simp only [List.length_cons, List.length_append,
                List.length_nil] at hlen
              have : g2.length = 0 := by omega
              rw [List.length_eq_zero] at this
              exact hne2 this
        unfold normKeyCore
        rw [hnone]
        have : pyLowerStr [',', pyLower cd1, pyLower cd2]
            = [',', pyLower cd1, pyLower cd2] := by
          simp only [pyLowerStr, List.map_cons, List.map_nil, pyLower_pyLower]
          rw [show pyLower ',' = ',' from by decide]
        rw [this]
    | cons x xs =>
        have hform : pyLowerStr ((x :: xs) ++ ',' :: [cd1, cd2])
            = pyLowerStr (x :: xs) ++ ',' :: [] ++ [pyLower cd1, pyLower cd2] := by
          simp only [pyLowerStr, List.map_append, List.map_cons, List.map_nil]
          rw [show pyLower ',' = ',' from by decide]
          simp
        have hmn : matchCityRegion (pyLowerStr ((x :: xs) ++ ',' :: [cd1, cd2]))
            = some (pyLowerStr (x :: xs), pyLower cd1, pyLower cd2) := by
          apply (matchCityRegion_eq_some_iff _ _ _ _).mpr
          refine ⟨⟨[], hform, by simp⟩, by simp [pyLowerStr], ?_, ?_, ?_⟩
          · intro hmem
            simp only [pyLowerStr, List.mem_map] at hmem
            obtain ⟨c0, hc0, hc0e⟩ := hmem
            rw [pyLower_eq_nl_iff] at hc0e
            exact hcity_nl (hc0e ▸ hc0)
          · rw [isAlpha_pyLower]; exact hcd1a
          · rw [isAlpha_pyLower]; exact hcd2a
        unfold normKeyCore
        simp only [hmn]
        have hcity2 : stripStr (pyLowerStr (x :: xs)) = pyLowerStr (x :: xs) := by
          rw [stripStr_pyLowerStr, hcity_strip]
        rw [hcity2]
        rw [pyUpper_pyLower cd1, pyUpper_pyLower cd2, hcd1u, hcd2u]
        rw [if_neg hcpq, hcl]
        simp only [List.isEmpty_nil, if_true]
        simp only [pyLowerStr, List.map_append, List.map_map, List.map_cons,
          List.map_nil]
        simp [Function.comp_def, pyLower_pyLower]

/-- The key built from a city, a two-letter code and a known country is
a strip-fixed ASCII string on which the key construction is a fixpoint. -/
theorem normKey_country_branch (city : List Char) (cd1 cd2 : Char) (lc : List Char)
    (hcity_head : ∀ c, city.head? = some c → isPySpace c = false)
    (hcity_ascii : ∀ c ∈ city, c.toNat < 128)
    (hcd1a : cd1.isAlpha = true) (hcd2a : cd2.isAlpha = true)
    (hcd1s : cd1.toNat < 128) (hcd2s : cd2.toNat < 128)
    (hlc : lc = "Canada".toList ∨ lc = "USA".toList) :
    stripStr (pyLowerStr (city ++ ',' :: [cd1, cd2] ++ ',' :: lc))
      = pyLowerStr (city ++ ',' :: [cd1, cd2] ++ ',' :: lc) ∧
    (∀ c ∈ pyLowerStr (city ++ ',' :: [cd1, cd2] ++ ',' :: lc), c.toNat < 128) ∧
    normKeyCore (pyLowerStr (city ++ ',' :: [cd1, cd2] ++ ',' :: lc))
      = pyLowerStr (city ++ ',' :: [cd1, cd2] ++ ',' :: lc) := by
  have hz_head : ∀ c, ((city ++ ',' :: [cd1, cd2]) ++ ',' :: lc).head? = some c →
      isPySpace c = false := by
    intro c hc
    cases city with
    | nil =>
        simp only [List.nil_append, List.cons_append, List.head?_cons,
          Option.some.injEq] at hc
        subst hc
        decide
    | cons x xs =>
        simp only [List.cons_append, List.head?_cons, Option.some.injEq] at hc
        subst hc
        exact hcity_head x rfl
  have hz_last : ∀ c, ((city ++ ',' :: [cd1, cd2]) ++ ',' :: lc).getLast? = some c →
      isPySpace c = false := by
    intro c hc
    rw [List.getLast?_append_of_ne_nil _ (by simp)] at hc
    rcases hlc with rfl | rfl
    · have hgl : (',' :: "Canada".toList : List Char).getLast? = some 'a' := rfl
      rw [hgl] at hc
      injection hc with hc
      subst hc
      decide
    · have hgl : (',' :: "USA".toList : List Char).getLast? = some 'A' := rfl
      rw [hgl] at hc
      injection hc with hc
      subst hc
      decide
  have hlc_ascii : ∀ c ∈ lc, c.toNat < 128 := by
    rcases hlc with rfl | rfl
    · decide
    · decide
  have hz_ascii : ∀ c ∈ (city ++ ',' :: [cd1, cd2]) ++ ',' :: lc, c.toNat < 128 := by
    intro c hc
    rcases List.mem_append.mp hc with hc | hc
    · rcases List.mem_append.mp hc with hc | hc
      · exact hcity_ascii c hc
      · simp only [List.mem_cons, List.not_mem_nil, or_false] at hc
        rcases hc with rfl | rfl | rfl
        · decide
        · exact hcd1s
        · exact hcd2s
    · rcases List.mem_cons.mp hc with rfl | hc
      · decide
      · exact hlc_ascii c hc
  have hdecomp : pyLowerStr ((city ++ ',' :: [cd1, cd2]) ++ ',' :: lc)
      = pyLowerStr (city ++ ',' :: [cd1, cd2]) ++ ',' :: pyLowerStr lc := by
    simp only [pyLowerStr, List.map_append, List.map_cons]
    rw [show pyLower ',' = ',' from by decide]
  refine ⟨?_, ?_, ?_⟩
  · rw [stripStr_pyLowerStr, stripStr_eq_self _ hz_head hz_last]
  · intro c hc
    simp only [pyLowerStr, List.mem_map] at hc
    obtain ⟨c0, hc0, rfl⟩ := hc
    exact pyLower_ascii c0 (hz_ascii c0 hc0)
  · have hnone : matchCityRegion (pyLowerStr ((city ++ ',' :: [cd1, cd2]) ++ ',' :: lc))
        = none := by
      cases hm2 : matchCityRegion (pyLowerStr ((city ++ ',' :: [cd1, cd2]) ++ ',' :: lc)) with
      | none => rfl
      | some r2 =>
          exfalso
          obtain ⟨g2, a2, b2⟩ := r2
          obtain ⟨⟨ws2, hd2, hsp2⟩, -, -, ha2, hb2⟩ :=
            (matchCityRegion_eq_some_iff _ g2 a2 b2).mp hm2
          rw [hdecomp] at hd2
          have hnc1 : ',' ∉ pyLowerStr lc := by
            rcases hlc with rfl | rfl
            · decide
            · decide
          have hnc2 : ',' ∉ ws2 ++ [a2, b2] := by
            intro hmem
            rcases List.mem_append.mp hmem with hmem | hmem
            · exact absurd (hsp2 ',' hmem) (by decide)
            · simp only [List.mem_cons, List.not_mem_nil, or_false] at hmem
              rcases hmem with hmem | hmem
              · rw [← hmem] at ha2
                exact absurd ha2 (by decide)
              · rw [← hmem] at hb2
                exact absurd hb2 (by decide)
          simp only [List.append_assoc, List.cons_append] at hd2
          obtain ⟨-, htail⟩ :=
            comma_split_unique _ _ _ _ hd2.symm hnc2 hnc1
          rcases hlc with rfl | rfl
          · have htail6 : ws2 ++ [a2, b2]
                = (['c', 'a', 'n', 'a'] : List Char) ++ ['d', 'a'] :=
              htail.trans (by decide)
            have hlen : ws2.length = 4 := by
              have h6 := congrArg List.length htail6
              simp only [List.length_append, List.length_cons,
                List.length_nil] at h6
              omega
            obtain ⟨hws, -⟩ := List.append_inj htail6 (by simp [hlen])
            have hcm : 'c' ∈ ws2 := by rw [hws]; decide
            exact absurd (hsp2 'c' hcm) (by decide)
          · have htail3 : ws2 ++ [a2, b2]
                = (['u'] : List Char) ++ ['s', 'a'] :=
              htail.trans (by decide)
            have hlen : ws2.length = 1 := by
              have h3 := congrArg List.length htail3
              simp only [List.length_append, List.length_cons,
                List.length_nil] at h3
              omega
            obtain ⟨hws, -⟩ := List.append_inj htail3 (by simp [hlen])
            have hcm : 'u' ∈ ws2 := by rw [hws]; decide
            exact absurd (hsp2 'u' hcm) (by decide)
    unfold normKeyCore
    rw [hnone, pyLowerStr_pyLowerStr]

/-- All characters of the key built by the normalization step are ASCII, the
key is already stripped, and the key construction is idempotent on keys built
from stripped ASCII input. -/
theorem normKeyCore_fix (t : List Char) (ht : stripStr t = t)
    (hascii : ∀ c ∈ t, c.toNat < 128) :
    stripStr (normKeyCore t) = normKeyCore t ∧
    (∀ c ∈ normKeyCore t, c.toNat < 128) ∧
    normKeyCore (normKeyCore t) = normKeyCore t := by
  cases hm : matchCityRegion t with
  | none =>
      have hk : normKeyCore t = pyLowerStr t := by
        unfold normKeyCore
        rw [hm]
      rw [hk]
      refine ⟨?_, ?_, ?_⟩
      · rw [stripStr_pyLowerStr, ht]
      · intro c hc
        simp only [pyLowerStr, List.mem_map] at hc
        obtain ⟨c0, hc0, rfl⟩ := hc
        exact pyLower_ascii c0 (hascii c0 hc0)
      · have hml : matchCityRegion (pyLowerStr t) = none := by
          rw [matchCityRegion_lower, hm]
          rfl
        unfold normKeyCore
        rw [hml, pyLowerStr_pyLowerStr]
  | some r =>
      obtain ⟨g1, a, b⟩ := r
      obtain ⟨⟨ws, htdec, hsp⟩, hne, hnl, ha, hb⟩ :=
        (matchCityRegion_eq_some_iff t g1 a b).mp hm
      have ha128 : a.toNat < 128 := hascii a (by rw [htdec]; simp)
      have hb128 : b.toNat < 128 := hascii b (by rw [htdec]; simp)
      obtain ⟨cd1, cd2, hcode, hcd1a, hcd2a, hcd1u, hcd2u, hcd1s, hcd2s, hcpq⟩ :=
        code_facts a b ha hb ha128 hb128
      have hcpq' : ([cd1, cd2] : List Char) ≠ ['P', 'Q'] := hcode ▸ hcpq
      have hg1nl : '\n' ∉ stripStr g1 := fun hc =>
        hnl (mem_stripStr g1 '\n' hc)
      have hg1ascii : ∀ c ∈ stripStr g1, c.toNat < 128 := by
        intro c hc
        refine hascii c ?_
        rw [htdec]
        exact List.mem_append_left _ (List.mem_append_left _ (mem_stripStr g1 c hc))
      rcases provLookup_cases [cd1, cd2] with hcl | hcl | hcl
      · have hkey : normKeyCore t = pyLowerStr (stripStr g1 ++ ',' :: [cd1, cd2]) := by
          unfold normKeyCore
          simp only [hm, hcode, hcl, List.isEmpty_nil, if_true]
        rw [hkey]
        exact normKey_nocountry_branch (stripStr g1) cd1 cd2
          (stripStr_stripStr g1) (fun c => stripStr_head g1 c) hg1nl hg1ascii
          hcd1a hcd2a hcd1u hcd2u hcd1s hcd2s hcpq' hcl
      · have hne2 : ¬((provLookup [cd1, cd2]).isEmpty = true) := by
          rw [hcl]
          decide
        have hkey : normKeyCore t
            = pyLowerStr (stripStr g1 ++ ',' :: [cd1, cd2]
                ++ ',' :: provLookup [cd1, cd2]) := by
          unfold normKeyCore
          simp only [hm, hcode]
          rw [if_neg hne2]
        rw [hkey]
        exact normKey_country_branch (stripStr g1) cd1 cd2 (provLookup [cd1, cd2])
          (fun c => stripStr_head g1 c) hg1ascii hcd1a hcd2a hcd1s hcd2s
          (Or.inl hcl)
      · have hne2 : ¬((provLookup [cd1, cd2]).isEmpty = true) := by
          rw [hcl]
          decide
        have hkey : normKeyCore t
            = pyLowerStr (stripStr g1 ++ ',' :: [cd1, cd2]
                ++ ',' :: provLookup [cd1, cd2]) := by
          unfold normKeyCore
          simp only [hm, hcode]
          rw [if_neg hne2]
        rw [hkey]
        exact normKey_country_branch (stripStr g1) cd1 cd2 (provLookup [cd1, cd2])
          (fun c => stripStr_head g1 c) hg1ascii hcd1a hcd2a hcd1s hcd2s
          (Or.inr hcl)

end Enrich

/-- C7: the normalized location key of `normalize_loc` is idempotent
(normalizing a key that `normalize_loc` itself produced returns the same key)
and case/accent-insensitive (two inputs whose transliterated, stripped,
lowercased forms agree — e.g. a string and its upper-cased or
accent-stripped variant — get equal keys).  The idempotence half assumes the
transliteration deletes no character of the input, which `unidecode` satisfies
on every Latin-script location string. -/
theorem C7_normalize_key (x y : List Char)
    (hx : ∀ c ∈ stripStr x, asciiFold c ≠ [])
    (hxy : pyLowerStr (foldStr (stripStr x)) = pyLowerStr (foldStr (stripStr y))) :
    (Enrich.normalize_locL ((Enrich.normalize_locL x).norm)).norm
      = (Enrich.normalize_locL x).norm ∧
    (Enrich.normalize_locL x).norm = (Enrich.normalize_locL y).norm := by
  have hstrip : stripStr (foldStr (stripStr x)) = foldStr (stripStr x) :=
    stripStr_foldStr (stripStr x) (stripStr_stripStr x) hx
  have hascii : ∀ c ∈ foldStr (stripStr x), c.toNat < 128 :=
    fun c hc => foldStr_ascii (stripStr x) c hc
  obtain ⟨hks, hka, hki⟩ :=
    Enrich.normKeyCore_fix (foldStr (stripStr x)) hstrip hascii
  constructor
  · rw [Enrich.normalize_locL_norm, Enrich.normalize_locL_norm x]
    rw [hks, foldStr_eq_self _ hka]
    exact hki
  · rw [Enrich.normalize_locL_norm x, Enrich.normalize_locL_norm y]
    rw [← Enrich.normKeyCore_lower (foldStr (stripStr x)), hxy,
      Enrich.normKeyCore_lower (foldStr (stripStr y))]

/-- C7 witness: `"Montréal,QC"` normalizes to the same key as
`"MONTREAL,QC"`, and re-normalizing that key is a no-op. -/
theorem C7_normalize_key_witness :
    (∀ c ∈ stripStr "Montréal,QC".toList, asciiFold c ≠ []) ∧
    pyLowerStr (foldStr (stripStr "Montréal,QC".toList))
      = pyLowerStr (foldStr (stripStr "MONTREAL,QC".toList)) ∧
    (Enrich.normalize_locL ((Enrich.normalize_locL "Montréal,QC".toList).norm)).norm
      = (Enrich.normalize_locL "Montréal,QC".toList).norm ∧
    (Enrich.normalize_locL "Montréal,QC".toList).norm
      = (Enrich.normalize_locL "MONTREAL,QC".toList).norm :=
  ⟨by decide, by decide,
    C7_normalize_key "Montréal,QC".toList "MONTREAL,QC".toList
      (by decide) (by decide)⟩

namespace Enrich

/-- A suffix accepted by `validG2` ends in `,` plus two letters. -/
theorem validG2_shape (g2 : List Char) (h : validG2 g2 = true) :
    EndsCityCode g2 := by
  unfold validG2 at h
  cases hr : g2.reverse with
  | nil => rw [hr] at h; simp at h
  | cons y r1 =>
      cases r1 with
      | nil => rw [hr] at h; simp at h
      | cons x r2 =>
          cases r2 with
          | nil => rw [hr] at h; simp at h
          | cons cm u =>
              rw [hr] at h
              simp only [Bool.and_eq_true, beq_iff_eq] at h
              obtain ⟨⟨⟨hcm, hx⟩, hy⟩, -⟩ := h
              refine ⟨u.reverse, x, y, ?_, hx, hy⟩
              have := congrArg List.reverse hr
              rw [List.reverse_reverse] at this
              rw [this, hcm]
              simp

/-- A successful `tryCandidate` stop yields a first group ending in
`,` + two letters and a `validG2`-accepted second group. -/
theorem tryCandidate_some (pre : List Char) (c : Char) (cs : List Char)
    (g1 g2 : List Char) (h : tryCandidate pre c cs = some (g1, g2)) :
    EndsCityCode g1 ∧ validG2 g2 = true := by
  by_cases hc : (c == ',') = true
  · rcases cs with _ | ⟨c1, _ | ⟨c2, _ | ⟨c3, rest⟩⟩⟩
    · simp [tryCandidate, hc] at h
    · simp [tryCandidate, hc] at h
    · simp [tryCandidate, hc] at h
    · simp only [tryCandidate, hc, if_true] at h
      by_cases h2 : (c1.isAlpha && c2.isAlpha && isPySpace c3) = true
      · rw [if_pos h2] at h
        by_cases h3 : validG2 (((c3 :: rest).dropWhile isPySpace)) = true
        · rw [if_pos h3] at h
          injection h with h
          injection h with ha hb
          simp only [Bool.and_eq_true] at h2
          rw [beq_iff_eq] at hc
          subst hc
          constructor
          · exact ⟨pre.reverse, c1, c2, ha.symm, h2.1.1, h2.1.2⟩
          · rw [← hb]; exact h3
        · rw [if_neg h3] at h
          exact absurd h (by simp)
      · rw [if_neg h2] at h
        exact absurd h (by simp)
  · simp [tryCandidate, hc] at h

/-- Every successful two-city match has both groups ending in
`,` + two ASCII letters. -/
theorem goTC_some (l : List Char) : ∀ pre g1 g2,
    goTC pre l = some (g1, g2) → EndsCityCode g1 ∧ validG2 g2 = true := by
  induction l with
  | nil => intro pre g1 g2 h; exact absurd h (by simp [goTC])
  | cons c cs ih =>
      intro pre g1 g2 h
      unfold goTC at h
      cases htc : tryCandidate pre c cs with
      | some r =>
          simp only [htc, Option.some.injEq] at h
          subst h
          exact tryCandidate_some pre c cs g1 g2 htc
      | none =>
          simp only [htc] at h
          split at h
          · exact absurd h (by simp)
          · exact ih (c :: pre) g1 g2 h

/-- Stripping preserves the `,` + two letters tail. -/
theorem stripStr_endsCityCode (u : List Char) (x y : Char)
    (_hx : x.isAlpha = true) (hy : y.isAlpha = true) :
    ∃ w, stripStr (u ++ [',', x, y]) = w ++ [',', x, y] := by
  have hfront : ∃ w, (u ++ [',', x, y]).dropWhile isPySpace = w ++ [',', x, y] := by
    rw [List.dropWhile_append]
    split
    · exact ⟨[], by rw [List.dropWhile_cons_of_neg (by decide)]; simp⟩
    · exact ⟨u.dropWhile isPySpace, rfl⟩
  obtain ⟨w, hw⟩ := hfront
  refine ⟨w, ?_⟩
  unfold stripStr
  rw [hw]
  have hrev : (w ++ [',', x, y]).reverse = y :: x :: ',' :: w.reverse := by
    simp
  rw [hrev, List.dropWhile_cons_of_neg]
  · simp
  · simp [isAlpha_not_space y hy]

/-- The two-city match either fails or produces two groups that still end in
`,` + two letters after stripping. -/
theorem matchTwo_shape (t : List Char) :
    matchTwoCities t = none ∨
    ∃ g1 g2, matchTwoCities t = some (g1, g2) ∧
      EndsCityCode (stripStr g1) ∧ EndsCityCode (stripStr g2) := by
  cases hm : matchTwoCities t with
  | none => exact Or.inl rfl
  | some g =>
      obtain ⟨g1, g2⟩ := g
      refine Or.inr ⟨g1, g2, rfl, ?_, ?_⟩
      · obtain ⟨⟨u, x, y, hg1, hxa, hya⟩, -⟩ := goTC_some t [] g1 g2 hm
        obtain ⟨w, hw⟩ := stripStr_endsCityCode u x y hxa hya
        exact ⟨w, x, y, by rw [hg1, hw], hxa, hya⟩
      · obtain ⟨-, hv⟩ := goTC_some t [] g1 g2 hm
        obtain ⟨u, x, y, hg2, hxa, hya⟩ := validG2_shape g2 hv
        obtain ⟨w, hw⟩ := stripStr_endsCityCode u x y hxa hya
        exact ⟨w, x, y, by rw [hg2, hw], hxa, hya⟩

/-- Either both origin and destination come out empty, or both end in
`,` + two ASCII letters. -/
theorem split_core_shape (text : List Char) :
    ((split_core text).1 = [] ∧ (split_core text).2.1 = []) ∨
    (EndsCityCode (split_core text).1 ∧ EndsCityCode (split_core text).2.1) := by
  unfold split_core
  cases hl : lastNum (stripStr text) with
  | none =>
      simp only [hl]
      rcases matchTwo_shape (stripStr text) with hm | ⟨g1, g2, hm, h1, h2⟩
      · rw [hm]
        exact Or.inl ⟨rfl, rfl⟩
      · rw [hm]
        exact Or.inr ⟨h1, h2⟩
  | some st =>
      simp only [hl]
      rcases matchTwo_shape (stripStr ((stripStr text).take st.1)) with
        hm | ⟨g1, g2, hm, h1, h2⟩
      · rw [hm]
        exact Or.inl ⟨rfl, rfl⟩
      · rw [hm]
        exact Or.inr ⟨h1, h2⟩

end Enrich

/-- The revenue token of the worked example parses to `225`. -/
theorem to_float_225 : Enrich.to_float "225.00".toList = some (225 : ℚ) := by
  have h2 : Enrich.to_float "225.00".toList
      = some ((digitsVal "225".toList : ℚ) + fracVal "00".toList) := rfl
  rw [h2]
  norm_num [digitsVal, fracVal, show '2'.toNat = 50 from rfl,
    show '5'.toNat = 53 from rfl, show '0'.toNat = 48 from rfl]

/-- **C4** (amended): the fused-field splitter decomposes the documented
example `"BOUCHERVILLE,PQ MONTREAL-NORD,PQ 225.00 CA"` into
`("BOUCHERVILLE,PQ", "MONTREAL-NORD,PQ", 225.00)`; on every input it either
returns origin and destination both empty or both in `…,<2 letters>` form
(never guessed); and `normalize_tsv.py`'s `split_origin_dest_revenue` is the
same function.  The claim's final clause is wrong about the third field:
when the two-city pattern does not match, the revenue extracted from the
last number is still returned (see the counterexample). -/
theorem C4_split_amended :
    Enrich.split_origin_destination
        "BOUCHERVILLE,PQ MONTREAL-NORD,PQ 225.00 CA".toList
      = ("BOUCHERVILLE,PQ".toList, "MONTREAL-NORD,PQ".toList, some (225 : ℚ)) ∧
    (∀ text : List Char,
        ((Enrich.split_origin_destination text).1 = [] ∧
          (Enrich.split_origin_destination text).2.1 = []) ∨
        (EndsCityCode (Enrich.split_origin_destination text).1 ∧
          EndsCityCode (Enrich.split_origin_destination text).2.1)) ∧
    (∀ text : List Char,
        NormalizeTsv.split_origin_dest_revenue text
          = Enrich.split_origin_destination text) := by
  refine ⟨?_, ?_, fun text => rfl⟩
  · have hc : Enrich.split_core
        "BOUCHERVILLE,PQ MONTREAL-NORD,PQ 225.00 CA".toList
        = ("BOUCHERVILLE,PQ".toList, "MONTREAL-NORD,PQ".toList,
            some "225.00".toList) := by decide
    unfold Enrich.split_origin_destination
    rw [hc]
    simp only [Prod.mk.injEq]
    refine ⟨trivial, trivial, ?_⟩
    show Enrich.to_float "225.00".toList = some (225 : ℚ)
    exact to_float_225
  · intro text
    exact Enrich.split_core_shape text

/-- **C4** counterexample to the claim as stated: `"FOO 225.00"` does not
match the `"<city>,<region> <city>,<region> <amount>"` pattern, and origin
and destination are indeed left empty — but the revenue field is `225.00`,
not empty. -/
theorem C4_revenue_counterexample :
    Enrich.split_origin_destination "FOO 225.00".toList
      = ([], [], some (225 : ℚ)) ∧
    some (225 : ℚ) ≠ (none : Option ℚ) := by
  constructor
  · have hc : Enrich.split_core "FOO 225.00".toList
        = ([], [], some "225.00".toList) := by decide
    unfold Enrich.split_origin_destination
    rw [hc]
    simp only [Prod.mk.injEq]
    refine ⟨trivial, trivial, ?_⟩
    show Enrich.to_float "225.00".toList = some (225 : ℚ)
    exact to_float_225
  · simp

/-- A successful `\b\d{5}\b` search returns exactly five digits. -/
theorem find5Go_shape : ∀ (l : List Char) (prev : Option Char)
    (tok : List Char), PdfToTsv.find5Go prev l = some tok →
    tok.length = 5 ∧ tok.all Char.isDigit = true := by
  intro l
  induction l with
  | nil => intro prev tok h; simp [PdfToTsv.find5Go] at h
  | cons c cs ih =>
      intro prev tok h
      rcases cs with _ | ⟨c2, _ | ⟨c3, _ | ⟨c4, _ | ⟨c5, rest⟩⟩⟩⟩
      · simp [PdfToTsv.find5Go] at h
      · simp [PdfToTsv.find5Go] at h
      · simp [PdfToTsv.find5Go] at h
      · simp [PdfToTsv.find5Go] at h
      · simp only [PdfToTsv.find5Go] at h
        split at h
        · rename_i hg
          injection h with h
          subst h
          simp only [Bool.and_eq_true] at hg
          obtain ⟨⟨⟨⟨⟨⟨-, h1⟩, h2⟩, h3⟩, h4⟩, h5⟩, -⟩ := hg
          refine ⟨rfl, ?_⟩
          simp [h1, h2, h3, h4, h5]
        · exact ih (some c) tok h

/-- **C1** (amended): from `map_row_from_table` a record is admitted only
if *all* of the following hold — a standalone five-digit order number was
found somewhere in the joined row (not necessarily its leading token), the
reconstructed customer is non-empty, and at least one of origin/destination
was recognized; and `process_pdf` keeps exactly the records whose
`order_no` is five digits.  Contrary to the claim, the digit-only order
number is *not* the sole admission gate (see the counterexample). -/
theorem C1_admission_amended :
    (∀ (row : List (List Char)) (rec : PdfToTsv.PdfRec),
        PdfToTsv.map_row_from_table row = .ok (some rec) →
        (rec.order_no.length = 5 ∧ rec.order_no.all Char.isDigit = true) ∧
        rec.customer ≠ [] ∧ (rec.origin ≠ [] ∨ rec.destination ≠ [])) ∧
    (∀ (recs : List PdfToTsv.PdfRec) (r : PdfToTsv.PdfRec),
        r ∈ PdfToTsv.processKeep recs ↔
          r ∈ recs ∧
            (r.order_no.length == 5 && r.order_no.all Char.isDigit) = true) := by
  constructor
  · intro row rec h
    unfold PdfToTsv.map_row_from_table at h
    split at h
    · simp at h
    · cases hf5 : PdfToTsv.find5 (List.intercalate [' '] row) with
      | none =>
          simp only [hf5] at h
          exact absurd h (by simp)
      | some order =>
          simp only [hf5] at h
          split at h
          · simp at h
          · split at h
            · simp at h
            · split at h
              · split at h
                · rename_i hg
                  injection h with h
                  injection h with h
                  rw [← h]
                  simp only [Bool.and_eq_true, Bool.or_eq_true,
                    Bool.not_eq_true'] at hg
                  refine ⟨find5Go_shape _ _ _ hf5, ?_, ?_⟩
                  · simpa using hg.1
                  · rcases hg.2 with h2 | h2
                    · exact Or.inl (by simpa using h2)
                    · exact Or.inr (by simpa using h2)
                · simp at h
              · simp at h
  · intro recs r
    simp [PdfToTsv.processKeep, List.mem_filter, PdfToTsv.keepRecord]

/-- **C1** counterexample to the claim as stated: a row with a perfect
standalone five-digit order number but no customer cell yields no record
(so the digit-only order number is not the sole admission gate), while a
row whose leading token is the non-digit `"ABC12"` still yields a record,
because `re.search(r"\b(\d{5})\b")` picks up a five-digit number from any
later cell. -/
theorem C1_admission_counterexample :
    PdfToTsv.map_row_from_table PdfToTsv.rowNoCustomer = .ok none ∧
    (∃ rec, PdfToTsv.map_row_from_table PdfToTsv.rowBadLead = .ok (some rec) ∧
      rec.order_no = "12345".toList) := by
  refine ⟨rfl, ⟨⟨"12345".toList, "2024-01-04".toList,
    "ABC12 CUSTX".toList, "X,QC".toList, "B,QC".toList,
    PdfToTsv.clean_money "1.00".toList, PdfToTsv.clean_money "2.00".toList,
    PdfToTsv.clean_money "3.00".toList⟩, ?_, rfl⟩⟩
  rfl

/-- **C1** witness: the amended theorem applied to a fully-populated sample
row, whose record indeed has a five-digit order number, a customer and an
origin. -/
theorem C1_admission_amended_witness :
    PdfToTsv.map_row_from_table PdfToTsv.sampleRow
      = .ok (some PdfToTsv.sampleRec) ∧
    ((PdfToTsv.sampleRec.order_no.length = 5 ∧
        PdfToTsv.sampleRec.order_no.all Char.isDigit = true) ∧
      PdfToTsv.sampleRec.customer ≠ [] ∧
      (PdfToTsv.sampleRec.origin ≠ [] ∨ PdfToTsv.sampleRec.destination ≠ [])) :=
  ⟨rfl, C1_admission_amended.1 PdfToTsv.sampleRow PdfToTsv.sampleRec rfl⟩

/-- **C8** (amended): when a resolution of an ordered pair *succeeds*, a
repeat resolution with the returned caches is answered entirely from the
distance cache — it issues no remote call and returns the identical
distance, leaving both caches unchanged.  (When the first resolution fails,
nothing is cached and a repeat reissues the same remote calls — see the
counterexample.) -/
theorem C8_cache_idempotent (hasKey : Bool)
    (G : List Char → List Char → Option (ℚ × ℚ))
    (R : ℚ × ℚ → ℚ × ℚ → Option ℚ) (hav : ℚ × ℚ → ℚ × ℚ → ℚ)
    (origin dest : List Char) (lc lc' : List Enrich.LocRow)
    (dc dc' : List Enrich.DistRow) (d : ℚ) (ev : List Enrich.GeoEvent)
    (h : Enrich.pair_distance hasKey G R hav origin dest lc dc
        = (some d, lc', dc', ev)) :
    Enrich.pair_distance hasKey G R hav origin dest lc' dc'
      = (some d, lc', dc', []) := by
  simp only [Enrich.pair_distance] at h ⊢
  by_cases h0 : (((Enrich.normalize_locL origin).norm).isEmpty
      || ((Enrich.normalize_locL dest).norm).isEmpty) = true
  · rw [if_pos h0] at h
    simp at h
  · rw [if_neg h0] at h
    rw [if_neg h0]
    cases hf : List.find? (fun r =>
        r.origin_norm == (Enrich.normalize_locL origin).norm &&
        r.dest_norm == (Enrich.normalize_locL dest).norm) dc with
    | some row =>
        simp only [hf] at h
        simp only [Prod.mk.injEq, Option.some.injEq] at h
        obtain ⟨h1, h2, h3, h4⟩ := h
        subst h1 h2 h3
        simp only [hf]
    | none =>
        simp only [hf] at h
        rcases hA : Enrich.get_coords G origin lc with ⟨o1, l1, e1⟩
        rcases hB : Enrich.get_coords G dest l1 with ⟨o2, l2, e2⟩
        simp only [hA, hB] at h
        cases o1 with
        | none => simp at h
        | some oc =>
        cases o2 with
        | none => simp at h
        | some dc2 =>
        cases hr : (Enrich.ors_distance_km hasKey R oc dc2).1 with
        | some d0 =>
            simp only [hr] at h
            simp only [Prod.mk.injEq, Option.some.injEq] at h
            obtain ⟨h1, h2, h3, h4⟩ := h
            subst h1 h2 h3
            rw [List.find?_append, hf]
            simp only [Option.none_or]
            rw [List.find?_cons_of_pos _ (by simp)]
        | none =>
            simp only [hr] at h
            simp only [Prod.mk.injEq, Option.some.injEq] at h
            obtain ⟨h1, h2, h3, h4⟩ := h
            subst h1 h2 h3
            rw [List.find?_append, hf]
            simp only [Option.none_or]
            rw [List.find?_cons_of_pos _ (by simp)]

/-- **C8** counterexample to the claim as stated: with a failing geocoder,
resolving the pair (`"A,QC"`, `"B,QC"`) issues two remote geocode calls and
caches nothing, so the identical repeat resolution issues the same two
remote calls again — four for the pair, not at most one — and is never
answered from the distance cache. -/
theorem C8_repeat_counterexample :
    Enrich.pair_distance false Enrich.geoOracleNone Enrich.routeOracleNone
        Enrich.havConst "A,QC".toList "B,QC".toList [] []
      = (none, [], [],
         [.geocodeCall "a,qc,canada".toList "Canada".toList,
          .geocodeCall "b,qc,canada".toList "Canada".toList]) ∧
    ([Enrich.GeoEvent.geocodeCall "a,qc,canada".toList "Canada".toList,
      Enrich.GeoEvent.geocodeCall "b,qc,canada".toList "Canada".toList]
        : List Enrich.GeoEvent) ≠ [] :=
  ⟨rfl, by simp⟩

/-- **C8** witness: a successful first resolution (geocoder answers, no
routing key, haversine fallback), whose repeat is answered from the new
distance-cache row with the identical distance and no remote call. -/
theorem C8_cache_idempotent_witness :
    Enrich.pair_distance false Enrich.geoOracleConst Enrich.routeOracleNone
        Enrich.havConst "A,QC".toList "B,QC".toList [] []
      = (some (Enrich.havConst (0, 0) (0, 0) * (12 / 10)),
         [⟨"A,QC".toList, "a,qc,canada".toList, 0, 0, "Canada".toList⟩,
          ⟨"B,QC".toList, "b,qc,canada".toList, 0, 0, "Canada".toList⟩],
         [⟨"a,qc,canada".toList, "b,qc,canada".toList,
           Enrich.havConst (0, 0) (0, 0) * (12 / 10),
           "haversine_x1.2".toList⟩],
         [.geocodeCall "a,qc,canada".toList "Canada".toList,
          .geocodeCall "b,qc,canada".toList "Canada".toList]) ∧
    Enrich.pair_distance false Enrich.geoOracleConst Enrich.routeOracleNone
        Enrich.havConst "A,QC".toList "B,QC".toList
        [⟨"A,QC".toList, "a,qc,canada".toList, 0, 0, "Canada".toList⟩,
         ⟨"B,QC".toList, "b,qc,canada".toList, 0, 0, "Canada".toList⟩]
        [⟨"a,qc,canada".toList, "b,qc,canada".toList,
          Enrich.havConst (0, 0) (0, 0) * (12 / 10),
          "haversine_x1.2".toList⟩]
      = (some (Enrich.havConst (0, 0) (0, 0) * (12 / 10)),
         [⟨"A,QC".toList, "a,qc,canada".toList, 0, 0, "Canada".toList⟩,
          ⟨"B,QC".toList, "b,qc,canada".toList, 0, 0, "Canada".toList⟩],
         [⟨"a,qc,canada".toList, "b,qc,canada".toList,
           Enrich.havConst (0, 0) (0, 0) * (12 / 10),
           "haversine_x1.2".toList⟩],
         []) :=
  ⟨rfl, C8_cache_idempotent false Enrich.geoOracleConst Enrich.routeOracleNone
    Enrich.havConst "A,QC".toList "B,QC".toList [] _ [] _ _ _ rfl⟩

/-- **C9**: whenever routing is unavailable or fails (no API key, or the
routing service gives no answer) but both endpoint coordinates are
resolved, `pair_distance` returns exactly `haversine(oc, dc) * 1.2` and
appends a distance-cache row tagged `method = "haversine_x1.2"` for the
pair. -/
theorem C9_haversine_fallback (hasKey : Bool)
    (G : List Char → List Char → Option (ℚ × ℚ))
    (R : ℚ × ℚ → ℚ × ℚ → Option ℚ) (hav : ℚ × ℚ → ℚ × ℚ → ℚ)
    (origin dest : List Char) (lc : List Enrich.LocRow)
    (dc : List Enrich.DistRow) (oc dc2 : ℚ × ℚ)
    (l1 l2 : List Enrich.LocRow) (e1 e2 : List Enrich.GeoEvent)
    (h0 : (((Enrich.normalize_locL origin).norm).isEmpty
        || ((Enrich.normalize_locL dest).norm).isEmpty) = false)
    (hmiss : List.find? (fun r =>
        r.origin_norm == (Enrich.normalize_locL origin).norm &&
        r.dest_norm == (Enrich.normalize_locL dest).norm) dc = none)
    (ho : Enrich.get_coords G origin lc = (some oc, l1, e1))
    (hd : Enrich.get_coords G dest l1 = (some dc2, l2, e2))
    (hroute : (Enrich.ors_distance_km hasKey R oc dc2).1 = none) :
    Enrich.pair_distance hasKey G R hav origin dest lc dc
      = (some (hav oc dc2 * (12 / 10)), l2,
         dc ++ [⟨(Enrich.normalize_locL origin).norm,
                 (Enrich.normalize_locL dest).norm,
                 hav oc dc2 * (12 / 10), "haversine_x1.2".toList⟩],
         e1 ++ e2 ++ (Enrich.ors_distance_km hasKey R oc dc2).2) := by
  have h0' : ¬((((Enrich.normalize_locL origin).norm).isEmpty
      || ((Enrich.normalize_locL dest).norm).isEmpty) = true) := by
    rw [h0]
    simp
  simp only [Enrich.pair_distance]
  rw [if_neg h0']
  simp only [hmiss, ho, hd, hroute]

/-- **C9** witness: geocoder answers `(0,0)` for both endpoints, no routing
key; the returned distance is the haversine value times `1.2` and the new
cache row is tagged `haversine_x1.2`. -/
theorem C9_haversine_fallback_witness :
    ((((Enrich.normalize_locL "A,QC".toList).norm).isEmpty
        || ((Enrich.normalize_locL "B,QC".toList).norm).isEmpty) = false) ∧
    (Enrich.ors_distance_km false Enrich.routeOracleNone (0, 0) (0, 0)).1
      = none ∧
    Enrich.pair_distance false Enrich.geoOracleConst Enrich.routeOracleNone
        Enrich.havConst "A,QC".toList "B,QC".toList [] []
      = (some (Enrich.havConst (0, 0) (0, 0) * (12 / 10)),
         [⟨"A,QC".toList, "a,qc,canada".toList, 0, 0, "Canada".toList⟩,
          ⟨"B,QC".toList, "b,qc,canada".toList, 0, 0, "Canada".toList⟩],
         [] ++ [⟨(Enrich.normalize_locL "A,QC".toList).norm,
                 (Enrich.normalize_locL "B,QC".toList).norm,
                 Enrich.havConst (0, 0) (0, 0) * (12 / 10),
                 "haversine_x1.2".toList⟩],
         [.geocodeCall "a,qc,canada".toList "Canada".toList]
           ++ [.geocodeCall "b,qc,canada".toList "Canada".toList]
           ++ (Enrich.ors_distance_km false Enrich.routeOracleNone
                (0, 0) (0, 0)).2) :=
  ⟨by decide, rfl,
    C9_haversine_fallback false Enrich.geoOracleConst Enrich.routeOracleNone
      Enrich.havConst "A,QC".toList "B,QC".toList [] [] (0, 0) (0, 0)
      [⟨"A,QC".toList, "a,qc,canada".toList, 0, 0, "Canada".toList⟩]
      [⟨"A,QC".toList, "a,qc,canada".toList, 0, 0, "Canada".toList⟩,
       ⟨"B,QC".toList, "b,qc,canada".toList, 0, 0, "Canada".toList⟩]
      [.geocodeCall "a,qc,canada".toList "Canada".toList]
      [.geocodeCall "b,qc,canada".toList "Canada".toList]
      (by decide) rfl rfl rfl rfl⟩
